import Mathlib

/-!
Shallow embedding of `src/textrank/sparse_graph.py` (weixinfree/TextRank).

Conventions of the embedding:
* Python `float` is modelled as the exact rationals `ℚ`; the float literal
  `0.0001` is modelled as `1/10000` and `0.85` as `17/20`.  Python raises
  `ZeroDivisionError` on `x / 0.0`, which is modelled explicitly with
  `Except PyError`: a division whose denominator is `0` aborts the
  computation with `PyError.zeroDivision` (the Lean convention `x / 0 = 0`
  is never relied upon on a path the Python code reaches).
* A Python `set` is modelled as a duplicate-free list (`setAdd` inserts a
  new element at the tail, no-op when present).  CPython iterates a set in
  hash-table order, which is NOT insertion order; therefore every function
  that iterates `self.nodes` takes the iteration order as an explicit list
  `enum`, constrained in the theorems to be a permutation of the stored
  node set.
* A Python `dict` / `defaultdict` is modelled as an association list in key
  insertion order.  `dictGet` is plain lookup; `ddRead` models a
  `defaultdict` subscript read, which inserts an empty set when the key is
  missing (this mutation is threaded through the rank computation so that
  the absence of mutation is a theorem, not an artefact).
* `pr[node]` on a missing key would raise `KeyError` in Python; the
  embedding uses a total lookup with default `0`.  On every path the
  program reaches, the key is present (the source of an incoming edge is
  always a node of the graph), so the default is never observed.
-/

/-- The `Edge` NamedTuple of the source: in `link_out` the field `to_node`
holds the edge's target, while in `link_in` the same structure is reused
with `to_node` holding the edge's source. -/
structure Edge where
  to_node : ℕ
  weight : ℚ
deriving DecidableEq, Repr

abbrev EdgeSet := List Edge

abbrev Adj := List (ℕ × EdgeSet)

/-- Python `set.add`: insert `a` unless already present. -/
def setAdd {α : Type} [DecidableEq α] (s : List α) (a : α) : List α :=
  if a ∈ s then s else s ++ [a]

/-- Plain `dict` lookup (first entry with the given key). -/
def dictGet {α : Type} (m : List (ℕ × α)) (k : ℕ) : Option α :=
  match m with
  | [] => none
  | (k₁, v) :: rest => if k = k₁ then some v else dictGet rest k

/-- `m.get(k, d)`: lookup with a default, no mutation. -/
def dictGetD {α : Type} (m : List (ℕ × α)) (k : ℕ) (d : α) : α :=
  (dictGet m k).getD d

/-- `defaultdict(set)` mutation `m[k].add(e)`: update the entry of `k`
(inserting the key with the singleton set when absent). -/
def ddAdd (m : Adj) (k : ℕ) (e : Edge) : Adj :=
  match m with
  | [] => [(k, [e])]
  | (k₁, v) :: rest => if k = k₁ then (k₁, setAdd v e) :: rest else (k₁, v) :: ddAdd rest k e

/-- `defaultdict(set)` subscript read `m[k]`: returns the stored set and the
possibly-extended dictionary (a missing key is inserted with an empty set). -/
def ddRead (m : Adj) (k : ℕ) : EdgeSet × Adj :=
  match dictGet m k with
  | some v => (v, m)
  | none => ([], m ++ [(k, [])])

/-- The `SparseGraph` class: node set plus outgoing and incoming adjacency.
`nodes` is the stored set as a duplicate-free list in insertion order. -/
structure SparseGraph where
  nodes : List ℕ
  link_out : Adj
  link_in : Adj
deriving DecidableEq, Repr

/-- `SparseGraph()` constructor. -/
def SparseGraph.empty : SparseGraph := ⟨[], [], []⟩

/-- `SparseGraph.add_node`. -/
def SparseGraph.add_node (g : SparseGraph) (n : ℕ) : SparseGraph :=
  { g with nodes := setAdd g.nodes n }

/-- `SparseGraph.link`: add both endpoints to the node set, record the edge
in the outgoing index of `from_node` and mirrored in the incoming index of
`to_node`. -/
def SparseGraph.link (g : SparseGraph) (from_node to_node : ℕ) (weight : ℚ := 1) : SparseGraph :=
  { nodes := setAdd (setAdd g.nodes from_node) to_node
    link_out := ddAdd g.link_out from_node ⟨to_node, weight⟩
    link_in := ddAdd g.link_in to_node ⟨from_node, weight⟩ }

/-- The graphs producible through the public API (`SparseGraph()` then any
sequence of `add_node` / `link` calls). -/
inductive Built : SparseGraph → Prop where
  | empty : Built SparseGraph.empty
  | add_node {g : SparseGraph} (n : ℕ) : Built g → Built (g.add_node n)
  | link {g : SparseGraph} (a b : ℕ) (w : ℚ) : Built g → Built (g.link a b w)

/-- Exceptions of the source that the embedding can surface.
`zeroDivision` models Python's `ZeroDivisionError`. -/
inductive PyError where
  /-- Python `ZeroDivisionError` (`1 / 0` and `x / 0.0`). -/
  | zeroDivision
  /-- Modelled from the spec: the spec's error taxonomy names an
  `EmptyGraphError` for `compute` on a zero-node graph; no such class exists
  anywhere in the source, so this constructor is never produced by the
  embedded code.  It exists only so the spec's statement can be compared
  with what the code actually raises. -/
  | emptyGraph
deriving DecidableEq, Repr

/-- `sum(e.weight for e in out_edges)`. -/
def sumWeights (es : EdgeSet) : ℚ := (es.map Edge.weight).sum

/-- The inner loop of `iter_compute_new_pr`:
`for node, weight in self.link_in.get(v, []): ... t += weight * pr[node] / denominator`,
accumulating into `t` and threading the `link_out` defaultdict (whose
subscript read may insert a key).  A zero denominator raises. -/
def iterInner (pr : List (ℕ × ℚ)) (ins : EdgeSet) (t : ℚ) (lo : Adj) :
    Except PyError (ℚ × Adj) :=
  match ins with
  | [] => .ok (t, lo)
  | e :: rest =>
    let p := ddRead lo e.to_node
    let denominator := sumWeights p.1
    if denominator = 0 then .error .zeroDivision
    else iterInner pr rest (t + e.weight * dictGetD pr e.to_node 0 / denominator) p.2

/-- The outer loop of `iter_compute_new_pr` over the keys of `pr`, building
`new_pr` entry by entry (`new_pr[v] = t * dampling_factor + tax`). -/
def iterKeys (li : Adj) (dampling_factor tax : ℚ) (pr : List (ℕ × ℚ)) (keys : List ℕ)
    (lo : Adj) : Except PyError (List (ℕ × ℚ) × Adj) :=
  match keys with
  | [] => .ok ([], lo)
  | v :: rest =>
    match iterInner pr (dictGetD li v []) 0 lo with
    | .error err => .error err
    | .ok (t, lo₁) =>
      match iterKeys li dampling_factor tax pr rest lo₁ with
      | .error err => .error err
      | .ok (tail, lo₂) => .ok ((v, t * dampling_factor + tax) :: tail, lo₂)

/-- `iter_compute_new_pr(pr)`: one full update of the rank vector. -/
def iter_compute_new_pr (li : Adj) (dampling_factor tax : ℚ) (pr : List (ℕ × ℚ)) (lo : Adj) :
    Except PyError (List (ℕ × ℚ) × Adj) :=
  iterKeys li dampling_factor tax pr (pr.map Prod.fst) lo

/-- `compute_diff(old_pr, new_pr)`: `max(abs(old_pr[node] - new_pr[node]) for node in nodes)`.
`nodes` is iterated as `enum`; the fold base `0` is only reached for an
empty node list, which `page_rank` rules out before the loop starts. -/
def compute_diff (enum : List ℕ) (old_pr new_pr : List (ℕ × ℚ)) : ℚ :=
  (enum.map (fun n => |dictGetD old_pr n 0 - dictGetD new_pr n 0|)).foldr max 0

/-- The `while i < max_iteration and diff > tolerance` loop.  `fuel` is the
number of remaining permitted iterations (`max_iteration - i`); the result
carries the final rank vector, the threaded `link_out` dictionary, the
number of iterations executed, and the final value of the `diff` variable. -/
def prLoop (li : Adj) (dampling_factor tax tolerance : ℚ) (enum : List ℕ) :
    ℕ → ℚ → List (ℕ × ℚ) → Adj → Except PyError (List (ℕ × ℚ) × Adj × ℕ × ℚ)
  | 0, diff, pr, lo => .ok (pr, lo, 0, diff)
  | fuel + 1, diff, pr, lo =>
    if tolerance < diff then
      match iter_compute_new_pr li dampling_factor tax pr lo with
      | .error err => .error err
      | .ok (npr, lo₁) =>
        match prLoop li dampling_factor tax tolerance enum fuel (compute_diff enum npr pr) npr lo₁ with
        | .error err => .error err
        | .ok (fpr, flo, i, fdiff) => .ok (fpr, flo, i + 1, fdiff)
    else .ok (pr, lo, 0, diff)

/-- Stable descending insertion by score (the semantics of Python's stable
`sorted(..., key=operator.itemgetter(1), reverse=True)`: an element moves
before another only when its score is strictly larger, so equal scores keep
their original relative order). -/
def insertDesc (a : ℕ × ℚ) : List (ℕ × ℚ) → List (ℕ × ℚ)
  | [] => [a]
  | b :: l => if b.2 ≤ a.2 then a :: b :: l else b :: insertDesc a l

/-- `sorted(pr.items(), key=operator.itemgetter(1), reverse=True)`. -/
def sortDesc : List (ℕ × ℚ) → List (ℕ × ℚ)
  | [] => []
  | a :: l => insertDesc a (sortDesc l)

/-- Everything `page_rank` has computed when it returns. -/
structure PRResult where
  /-- the value the Python function returns -/
  ranked : List (ℕ × ℚ)
  /-- the rank dictionary just before sorting (keys in set-iteration order) -/
  final_pr : List (ℕ × ℚ)
  /-- the graph as it stands after the call: `nodes` and `link_in` are never
  written by `page_rank` (the only reads are `len`, iteration and `.get`),
  and `link_out` is the threaded defaultdict state after all subscript
  reads -/
  graph_after : SparseGraph
  /-- how many times the `while` body ran -/
  iterations : ℕ
  /-- the `diff` variable at loop exit -/
  final_diff : ℚ
deriving DecidableEq, Repr

/-- `SparseGraph.page_rank`, instrumented.  `enum` is the iteration order of
the Python set `self.nodes` (CPython: hash-table order); theorems constrain
it to a permutation of `g.nodes`.  `N = len(nodes)` is `enum.length`;
`1 / N` with `N = 0` raises `ZeroDivisionError`. -/
def page_rank_full (g : SparseGraph) (enum : List ℕ) (max_iteration : ℕ := 10000)
    (tolerance : ℚ := 1/10000) (dampling_factor : ℚ := 17/20) : Except PyError PRResult :=
  let N := enum.length
  if N = 0 then .error .zeroDivision
  else
    let init_val : ℚ := 1 / N
    let pr : List (ℕ × ℚ) := enum.map (fun n => (n, init_val))
    let tax := (1 - dampling_factor) * init_val
    match prLoop g.link_in dampling_factor tax tolerance enum max_iteration 1 pr g.link_out with
    | .error err => .error err
    | .ok (fpr, flo, i, fdiff) =>
      .ok ⟨sortDesc fpr, fpr, { g with link_out := flo }, i, fdiff⟩

/-- `SparseGraph.page_rank` proper: just the returned sorted list. -/
def page_rank (g : SparseGraph) (enum : List ℕ) (max_iteration : ℕ := 10000)
    (tolerance : ℚ := 1/10000) (dampling_factor : ℚ := 17/20) :
    Except PyError (List (ℕ × ℚ)) :=
  (page_rank_full g enum max_iteration tolerance dampling_factor).map PRResult.ranked

/-! ## Basic facts about the container embeddings -/

theorem mem_setAdd {α : Type} [DecidableEq α] {s : List α} {a b : α} :
    b ∈ setAdd s a ↔ b ∈ s ∨ b = a := by
  unfold setAdd
  split
  · rename_i hmem
    constructor
    · exact fun h => Or.inl h
    · rintro (h | rfl) <;> assumption
  · simp [List.mem_append]

theorem self_mem_setAdd {α : Type} [DecidableEq α] (s : List α) (a : α) :
    a ∈ setAdd s a := mem_setAdd.mpr (Or.inr rfl)

theorem subset_setAdd {α : Type} [DecidableEq α] (s : List α) (a : α) :
    s ⊆ setAdd s a := fun _ h => mem_setAdd.mpr (Or.inl h)

theorem setAdd_nodup {α : Type} [DecidableEq α] {s : List α} (h : s.Nodup) (a : α) :
    (setAdd s a).Nodup := by
  unfold setAdd
  split
  · exact h
  · simpa [List.nodup_append] using ⟨h, by assumption⟩

theorem count_setAdd_self {α : Type} [DecidableEq α] {s : List α} (h : s.Nodup) (a : α) :
    (setAdd s a).count a = 1 := by
  unfold setAdd
  split
  · exact List.count_eq_one_of_mem h (by assumption)
  · rename_i hmem
    rw [List.count_append, List.count_eq_zero.mpr hmem]
    simp

theorem count_setAdd_ne {α : Type} [DecidableEq α] (s : List α) {a b : α} (h : b ≠ a) :
    (setAdd s a).count b = s.count b := by
  unfold setAdd
  split
  · rfl
  · rw [List.count_append]
    have : List.count b [a] = 0 := by
      simp [List.count_singleton', h]
    rw [this, add_zero]

theorem dictGet_mem {α : Type} {m : List (ℕ × α)} {k : ℕ} {v : α}
    (h : dictGet m k = some v) : (k, v) ∈ m := by
  induction m with
  | nil => simp [dictGet] at h
  | cons p rest ih =>
    obtain ⟨k₁, v₁⟩ := p
    rw [dictGet] at h
    by_cases hk : k = k₁
    · rw [if_pos hk] at h
      cases h
      rw [hk]
      exact List.mem_cons_self _ _
    · rw [if_neg hk] at h
      exact List.mem_cons_of_mem _ (ih h)

theorem dictGet_eq_some_of_mem {α : Type} {m : List (ℕ × α)} {k : ℕ} {v : α}
    (hnodup : (m.map Prod.fst).Nodup) (h : (k, v) ∈ m) : dictGet m k = some v := by
  induction m with
  | nil => simp at h
  | cons p rest ih =>
    obtain ⟨k₁, v₁⟩ := p
    rw [List.map_cons, List.nodup_cons] at hnodup
    rcases List.mem_cons.mp h with h₁ | h₂
    · rw [dictGet]
      cases h₁
      rw [if_pos rfl]
    · have hk : k ≠ k₁ := by
        rintro rfl
        exact hnodup.1 (List.mem_map.mpr ⟨(k, v), h₂, rfl⟩)
      rw [dictGet, if_neg hk]
      exact ih hnodup.2 h₂

theorem dictGet_isSome_iff {α : Type} {m : List (ℕ × α)} {k : ℕ} :
    (dictGet m k).isSome = true ↔ k ∈ m.map Prod.fst := by
  induction m with
  | nil => simp [dictGet]
  | cons p rest ih =>
    obtain ⟨k₁, v₁⟩ := p
    rw [dictGet]
    by_cases hk : k = k₁
    · simp [hk]
    · rw [if_neg hk]
      simp [hk, ih]

theorem dictGet_ddAdd_self (m : Adj) (k : ℕ) (e : Edge) :
    dictGet (ddAdd m k e) k = some (setAdd (dictGetD m k []) e) := by
  induction m with
  | nil => simp [ddAdd, dictGet, dictGetD, setAdd]
  | cons p rest ih =>
    obtain ⟨k₁, v₁⟩ := p
    by_cases hk : k = k₁
    · subst hk
      simp [ddAdd, dictGet, dictGetD]
    · simpa [ddAdd, dictGet, dictGetD, hk] using ih

theorem dictGet_ddAdd_ne (m : Adj) {k k' : ℕ} (e : Edge) (h : k' ≠ k) :
    dictGet (ddAdd m k e) k' = dictGet m k' := by
  induction m with
  | nil => simp [ddAdd, dictGet, h]
  | cons p rest ih =>
    obtain ⟨k₁, v₁⟩ := p
    by_cases hk : k = k₁
    · subst hk
      simp [ddAdd, dictGet, h]
    · by_cases hk' : k' = k₁
      · simp [ddAdd, dictGet, hk, hk']
      · simpa [ddAdd, dictGet, hk, hk'] using ih

theorem ddAdd_keys (m : Adj) (k : ℕ) (e : Edge) :
    (ddAdd m k e).map Prod.fst = setAdd (m.map Prod.fst) k := by
  induction m with
  | nil => simp [ddAdd, setAdd]
  | cons p rest ih =>
    obtain ⟨k₁, v₁⟩ := p
    by_cases hk : k = k₁
    · subst hk
      simp [ddAdd, setAdd]
    · by_cases hmem : k ∈ rest.map Prod.fst
      · simp [ddAdd, setAdd, hk, hmem, ih]
      · simp [ddAdd, setAdd, hk, hmem, ih]

theorem ddAdd_sets_nodup {m : Adj} (hm : ∀ p ∈ m, (p.2 : EdgeSet).Nodup) (k : ℕ) (e : Edge) :
    ∀ p ∈ ddAdd m k e, (p.2 : EdgeSet).Nodup := by
  induction m with
  | nil =>
    intro p hp
    rw [ddAdd] at hp
    rcases List.mem_singleton.mp hp with rfl
    simp
  | cons q rest ih =>
    obtain ⟨k₁, v₁⟩ := q
    intro p hp
    rw [ddAdd] at hp
    by_cases hk : k = k₁
    · rw [if_pos hk] at hp
      rcases List.mem_cons.mp hp with rfl | h₂
      · exact setAdd_nodup (hm (k₁, v₁) (List.mem_cons_self _ _)) e
      · exact hm p (List.mem_cons_of_mem _ h₂)
    · rw [if_neg hk] at hp
      rcases List.mem_cons.mp hp with rfl | h₂
      · exact hm (k₁, v₁) (List.mem_cons_self _ _)
      · exact ih (fun q hq => hm q (List.mem_cons_of_mem _ hq)) p h₂

theorem ddRead_of_isSome {m : Adj} {k : ℕ} (h : (dictGet m k).isSome = true) :
    ddRead m k = (dictGetD m k [], m) := by
  unfold ddRead dictGetD
  cases heq : dictGet m k with
  | none => rw [heq] at h; simp at h
  | some v => rfl

/-! ## Edge triples and the graph well-formedness invariant -/

/-- All `(key, element)` data of an adjacency dictionary, flattened through
a view function. -/
def triples {α : Type} (f : ℕ → Edge → α) (m : Adj) : List α :=
  m.flatMap fun p => p.2.map (f p.1)

/-- The `(source, target, weight)` triples of an outgoing index. -/
def outT (lo : Adj) : List (ℕ × ℕ × ℚ) :=
  triples (fun u e => (u, e.to_node, e.weight)) lo

/-- The `(source, target, weight)` triples of an incoming index (recall the
`to_node` field of an incoming `Edge` holds the source). -/
def inT (li : Adj) : List (ℕ × ℕ × ℚ) :=
  triples (fun v e => (e.to_node, v, e.weight)) li

theorem triples_cons {α : Type} (f : ℕ → Edge → α) (k : ℕ) (es : EdgeSet) (m : Adj) :
    triples f ((k, es) :: m) = es.map (f k) ++ triples f m := rfl

theorem mem_triples_of {α : Type} {f : ℕ → Edge → α} {m : Adj} {k : ℕ} {es : EdgeSet} {e : Edge}
    (hp : (k, es) ∈ m) (he : e ∈ es) : f k e ∈ triples f m := by
  unfold triples
  exact List.mem_flatMap.mpr ⟨(k, es), hp, List.mem_map.mpr ⟨e, he, rfl⟩⟩

theorem mem_triples_elim {α : Type} {f : ℕ → Edge → α} {m : Adj} {a : α}
    (h : a ∈ triples f m) : ∃ p ∈ m, ∃ e ∈ p.2, f p.1 e = a := by
  unfold triples at h
  obtain ⟨p, hp, ha⟩ := List.mem_flatMap.mp h
  obtain ⟨e, he, rfl⟩ := List.mem_map.mp ha
  exact ⟨p, hp, e, he, rfl⟩

theorem mem_outT_iff {lo : Adj} (hkeys : (lo.map Prod.fst).Nodup) {a b : ℕ} {w : ℚ} :
    (a, b, w) ∈ outT lo ↔ Edge.mk b w ∈ dictGetD lo a [] := by
  constructor
  · intro h
    obtain ⟨p, hp, e, he, heq⟩ := mem_triples_elim h
    obtain ⟨u, es⟩ := p
    obtain ⟨bn, wn⟩ := e
    obtain ⟨rfl, rfl, rfl⟩ : u = a ∧ bn = b ∧ wn = w := by
      simpa [Prod.ext_iff] using heq
    rw [dictGetD, dictGet_eq_some_of_mem hkeys hp]
    exact he
  · intro h
    rw [dictGetD] at h
    cases heq : dictGet lo a with
    | none => rw [heq] at h; simp at h
    | some es =>
      rw [heq] at h
      exact mem_triples_of (dictGet_mem heq) h

theorem mem_inT_iff {li : Adj} (hkeys : (li.map Prod.fst).Nodup) {a b : ℕ} {w : ℚ} :
    (a, b, w) ∈ inT li ↔ Edge.mk a w ∈ dictGetD li b [] := by
  constructor
  · intro h
    obtain ⟨p, hp, e, he, heq⟩ := mem_triples_elim h
    obtain ⟨v, es⟩ := p
    obtain ⟨src, wn⟩ := e
    obtain ⟨rfl, rfl, rfl⟩ : src = a ∧ v = b ∧ wn = w := by
      simpa [Prod.ext_iff] using heq
    rw [dictGetD, dictGet_eq_some_of_mem hkeys hp]
    exact he
  · intro h
    rw [dictGetD] at h
    cases heq : dictGet li b with
    | none => rw [heq] at h; simp at h
    | some es =>
      rw [heq] at h
      exact @mem_triples_of _ (fun v e => (e.to_node, v, e.weight)) _ _ _ _ (dictGet_mem heq) h

/-- The effect of one `link`-style insertion on the triple multiset: either
the edge was already present (set semantics, nothing changes) or exactly the
new triple is added. -/
theorem triples_ddAdd {α : Type} (f : ℕ → Edge → α) (m : Adj) (k : ℕ) (e : Edge) :
    (triples f (ddAdd m k e)).Perm
      (if e ∈ dictGetD m k [] then triples f m else f k e :: triples f m) := by
  induction m with
  | nil =>
    simp [ddAdd, dictGetD, dictGet, triples]
  | cons p rest ih =>
    obtain ⟨k₁, v₁⟩ := p
    by_cases hk : k = k₁
    · subst hk
      rw [show ddAdd ((k, v₁) :: rest) k e = (k, setAdd v₁ e) :: rest by simp [ddAdd],
        show dictGetD ((k, v₁) :: rest) k [] = v₁ by simp [dictGetD, dictGet]]
      by_cases he : e ∈ v₁
      · rw [if_pos he, show setAdd v₁ e = v₁ from if_pos he]
      · rw [if_neg he, show setAdd v₁ e = v₁ ++ [e] from if_neg he,
          triples_cons, triples_cons, List.map_append, List.append_assoc]
        exact List.perm_middle
    · rw [show ddAdd ((k₁, v₁) :: rest) k e = (k₁, v₁) :: ddAdd rest k e by simp [ddAdd, hk],
        show dictGetD ((k₁, v₁) :: rest) k [] = dictGetD rest k [] by
          simp [dictGetD, dictGet, hk]]
      rw [triples_cons, triples_cons]
      by_cases he : e ∈ dictGetD rest k []
      · rw [if_pos he]
        rw [if_pos he] at ih
        exact ih.append_left _
      · rw [if_neg he]
        rw [if_neg he] at ih
        exact (ih.append_left _).trans List.perm_middle

/-- Structural invariant of every graph reachable through the API: the node
list and both key lists are duplicate-free sets, every adjacency key is a
node, and the incoming index is an exact mirror of the outgoing index. -/
structure WF (g : SparseGraph) : Prop where
  nodes_nodup : g.nodes.Nodup
  out_keys_nodup : (g.link_out.map Prod.fst).Nodup
  in_keys_nodup : (g.link_in.map Prod.fst).Nodup
  out_sets_nodup : ∀ p ∈ g.link_out, (p.2 : EdgeSet).Nodup
  in_sets_nodup : ∀ p ∈ g.link_in, (p.2 : EdgeSet).Nodup
  out_keys_mem : ∀ p ∈ g.link_out, (p.1 : ℕ) ∈ g.nodes
  in_keys_mem : ∀ p ∈ g.link_in, (p.1 : ℕ) ∈ g.nodes
  mirror : (inT g.link_in).Perm (outT g.link_out)

theorem built_wf {g : SparseGraph} (h : Built g) : WF g := by
  induction h with
  | empty =>
    exact ⟨List.nodup_nil, List.nodup_nil, List.nodup_nil, by simp [SparseGraph.empty],
      by simp [SparseGraph.empty], by simp [SparseGraph.empty], by simp [SparseGraph.empty],
      List.Perm.refl _⟩
  | add_node n _ ih =>
    exact ⟨setAdd_nodup ih.nodes_nodup n, ih.out_keys_nodup, ih.in_keys_nodup,
      ih.out_sets_nodup, ih.in_sets_nodup,
      fun p hp => subset_setAdd _ _ (ih.out_keys_mem p hp),
      fun p hp => subset_setAdd _ _ (ih.in_keys_mem p hp), ih.mirror⟩
  | link a b w hb ih =>
    rename_i g₀
    clear hb
    have hcond : (Edge.mk a w ∈ dictGetD g₀.link_in b []) ↔
        (Edge.mk b w ∈ dictGetD g₀.link_out a []) := by
      rw [← mem_inT_iff ih.in_keys_nodup, ← mem_outT_iff ih.out_keys_nodup]
      exact ih.mirror.mem_iff
    refine ⟨?_, ?_, ?_, ?_, ?_, ?_, ?_, ?_⟩
    · exact setAdd_nodup (setAdd_nodup ih.nodes_nodup a) b
    · rw [show (g₀.link a b w).link_out = ddAdd g₀.link_out a ⟨b, w⟩ from rfl, ddAdd_keys]
      exact setAdd_nodup ih.out_keys_nodup a
    · rw [show (g₀.link a b w).link_in = ddAdd g₀.link_in b ⟨a, w⟩ from rfl, ddAdd_keys]
      exact setAdd_nodup ih.in_keys_nodup b
    · exact ddAdd_sets_nodup ih.out_sets_nodup a ⟨b, w⟩
    · exact ddAdd_sets_nodup ih.in_sets_nodup b ⟨a, w⟩
    · intro p hp
      have hmem : p.1 ∈ (ddAdd g₀.link_out a ⟨b, w⟩).map Prod.fst :=
        List.mem_map.mpr ⟨p, hp, rfl⟩
      rw [ddAdd_keys] at hmem
      rcases mem_setAdd.mp hmem with hmem₁ | rfl
      · obtain ⟨q, hq, hqeq⟩ := List.mem_map.mp hmem₁
        exact subset_setAdd _ _ (subset_setAdd _ _ (hqeq ▸ ih.out_keys_mem q hq))
      · exact subset_setAdd _ _ (self_mem_setAdd _ _)
    · intro p hp
      have hmem : p.1 ∈ (ddAdd g₀.link_in b ⟨a, w⟩).map Prod.fst :=
        List.mem_map.mpr ⟨p, hp, rfl⟩
      rw [ddAdd_keys] at hmem
      rcases mem_setAdd.mp hmem with hmem₁ | rfl
      · obtain ⟨q, hq, hqeq⟩ := List.mem_map.mp hmem₁
        exact subset_setAdd _ _ (subset_setAdd _ _ (hqeq ▸ ih.in_keys_mem q hq))
      · exact self_mem_setAdd _ _
    · have hin := triples_ddAdd (fun v e => (e.to_node, v, e.weight)) g₀.link_in b ⟨a, w⟩
      have hout := triples_ddAdd (fun u e => (u, e.to_node, e.weight)) g₀.link_out a ⟨b, w⟩
      rw [show (g₀.link a b w).link_in = ddAdd g₀.link_in b ⟨a, w⟩ from rfl,
        show (g₀.link a b w).link_out = ddAdd g₀.link_out a ⟨b, w⟩ from rfl]
      unfold inT outT
      by_cases hc : Edge.mk a w ∈ dictGetD g₀.link_in b []
      · rw [if_pos hc] at hin
        rw [if_pos (hcond.mp hc)] at hout
        exact (hin.trans ih.mirror).trans hout.symm
      · rw [if_neg hc] at hin
        rw [if_neg (fun hh => hc (hcond.mpr hh))] at hout
        exact (hin.trans (ih.mirror.cons _)).trans hout.symm

/-! ## One iteration of the update, characterised -/

/-- The contribution of one incoming edge `e` (source `e.to_node`) to a
node's raw inflow: `weight * pr[node] / denominator`. -/
def edgeTerm (lo : Adj) (pr : List (ℕ × ℚ)) (e : Edge) : ℚ :=
  e.weight * dictGetD pr e.to_node 0 / sumWeights (dictGetD lo e.to_node [])

theorem iterInner_ok {pr : List (ℕ × ℚ)} {lo : Adj} {ins : EdgeSet} {t t' : ℚ} {lo' : Adj}
    (hk : ∀ e ∈ ins, (dictGet lo e.to_node).isSome = true)
    (h : iterInner pr ins t lo = .ok (t', lo')) :
    lo' = lo ∧ t' = t + (ins.map (edgeTerm lo pr)).sum := by
  induction ins generalizing t with
  | nil =>
    rw [iterInner] at h
    cases h
    simp
  | cons e rest ih =>
    have hdd : ddRead lo e.to_node = (dictGetD lo e.to_node [], lo) :=
      ddRead_of_isSome (hk e (List.mem_cons_self _ _))
    rw [iterInner, hdd] at h
    by_cases hden : sumWeights (dictGetD lo e.to_node []) = 0
    · rw [if_pos hden] at h
      cases h
    · rw [if_neg hden] at h
      obtain ⟨hlo, ht⟩ := ih (fun e' he' => hk e' (List.mem_cons_of_mem _ he')) h
      refine ⟨hlo, ?_⟩
      rw [ht, List.map_cons, List.sum_cons, edgeTerm, add_assoc]

theorem iterInner_total {pr : List (ℕ × ℚ)} {lo : Adj} {ins : EdgeSet} (t : ℚ)
    (hk : ∀ e ∈ ins, (dictGet lo e.to_node).isSome = true)
    (hden : ∀ e ∈ ins, sumWeights (dictGetD lo e.to_node []) ≠ 0) :
    iterInner pr ins t lo = .ok (t + (ins.map (edgeTerm lo pr)).sum, lo) := by
  induction ins generalizing t with
  | nil =>
    rw [iterInner]
    simp
  | cons e rest ih =>
    have hdd : ddRead lo e.to_node = (dictGetD lo e.to_node [], lo) :=
      ddRead_of_isSome (hk e (List.mem_cons_self _ _))
    rw [iterInner, hdd, if_neg (hden e (List.mem_cons_self _ _)),
      ih _ (fun e' he' => hk e' (List.mem_cons_of_mem _ he'))
        (fun e' he' => hden e' (List.mem_cons_of_mem _ he'))]
    rw [List.map_cons, List.sum_cons, edgeTerm, add_assoc]

/-- The clean value of the updated score of one key, as the code computes it
when it succeeds: `new_pr[v] = t * dampling_factor + tax` with `t` the raw
inflow sum of `v`. -/
def newScore (li lo : Adj) (dampling_factor tax : ℚ) (pr : List (ℕ × ℚ)) (v : ℕ) : ℚ :=
  ((dictGetD li v []).map (edgeTerm lo pr)).sum * dampling_factor + tax

theorem iterKeys_ok {li lo : Adj} {dampling_factor tax : ℚ} {pr npr : List (ℕ × ℚ)}
    {keys : List ℕ} {lo' : Adj}
    (hk : ∀ v ∈ keys, ∀ e ∈ dictGetD li v [], (dictGet lo e.to_node).isSome = true)
    (h : iterKeys li dampling_factor tax pr keys lo = .ok (npr, lo')) :
    lo' = lo ∧ npr = keys.map (fun v => (v, newScore li lo dampling_factor tax pr v)) := by
  induction keys generalizing npr with
  | nil =>
    rw [iterKeys] at h
    cases h
    simp
  | cons v rest ih =>
    rw [iterKeys] at h
    split at h
    · cases h
    · rename_i t lo₁ heq
      obtain ⟨rfl, ht⟩ := iterInner_ok (hk v (List.mem_cons_self _ _)) heq
      split at h
      · cases h
      · rename_i tail lo₂ heq₂
        cases h
        obtain ⟨hlo₂, htail⟩ := ih (fun v' hv' => hk v' (List.mem_cons_of_mem _ hv')) heq₂
        refine ⟨hlo₂, ?_⟩
        rw [htail, List.map_cons, ht, zero_add, newScore]

theorem iterKeys_total {li lo : Adj} (dampling_factor tax : ℚ) (pr : List (ℕ × ℚ))
    {keys : List ℕ}
    (hk : ∀ v ∈ keys, ∀ e ∈ dictGetD li v [], (dictGet lo e.to_node).isSome = true)
    (hden : ∀ v ∈ keys, ∀ e ∈ dictGetD li v [],
      sumWeights (dictGetD lo e.to_node []) ≠ 0) :
    iterKeys li dampling_factor tax pr keys lo =
      .ok (keys.map (fun v => (v, newScore li lo dampling_factor tax pr v)), lo) := by
  induction keys with
  | nil => rw [iterKeys, List.map_nil]
  | cons v rest ih =>
    have h1 := @iterInner_total pr lo (dictGetD li v []) 0
      (hk v (List.mem_cons_self _ _)) (hden v (List.mem_cons_self _ _))
    have h2 := ih (fun v' hv' => hk v' (List.mem_cons_of_mem _ hv'))
      (fun v' hv' => hden v' (List.mem_cons_of_mem _ hv'))
    simp only [iterKeys, h1, h2]
    simp [newScore]

/-- In a well-formed graph, the source of every incoming edge is a key of
the outgoing index (it gained an outgoing edge in the same `link` call), so
the `defaultdict` subscript `self.link_out[node]` never inserts a key. -/
theorem wf_sources_isSome {g : SparseGraph} (hwf : WF g) :
    ∀ v : ℕ, ∀ e ∈ dictGetD g.link_in v [], (dictGet g.link_out e.to_node).isSome = true := by
  intro v e he
  rw [dictGetD] at he
  cases heq : dictGet g.link_in v with
  | none => rw [heq] at he; simp at he
  | some es =>
    rw [heq] at he
    have htr : (e.to_node, v, e.weight) ∈ inT g.link_in :=
      @mem_triples_of _ (fun v e => (e.to_node, v, e.weight)) _ _ _ _ (dictGet_mem heq) he
    obtain ⟨p, hp, e', he', heq'⟩ := mem_triples_elim (hwf.mirror.subset htr)
    have hfst : p.1 = e.to_node := congrArg Prod.fst heq'
    rw [dictGet_isSome_iff]
    exact hfst ▸ List.mem_map.mpr ⟨p, hp, rfl⟩

/-- Non-negativity of the outgoing weights transfers to the incoming index
through the mirror invariant. -/
theorem wf_in_weight_nonneg {g : SparseGraph} (hwf : WF g)
    (hw : ∀ p ∈ g.link_out, ∀ e ∈ (p.2 : EdgeSet), 0 ≤ e.weight) :
    ∀ v : ℕ, ∀ e ∈ dictGetD g.link_in v [], 0 ≤ e.weight := by
  intro v e he
  rw [dictGetD] at he
  cases heq : dictGet g.link_in v with
  | none => rw [heq] at he; simp at he
  | some es =>
    rw [heq] at he
    have htr : (e.to_node, v, e.weight) ∈ inT g.link_in :=
      @mem_triples_of _ (fun v e => (e.to_node, v, e.weight)) _ _ _ _ (dictGet_mem heq) he
    obtain ⟨p, hp, e', he', heq'⟩ := mem_triples_elim (hwf.mirror.subset htr)
    have hwt : e'.weight = e.weight := congrArg (Prod.snd ∘ Prod.snd) heq'
    exact hwt ▸ hw p hp e' he'

/-! ## The while loop, characterised -/

theorem prLoop_iterations_le {li : Adj} {dampling_factor tax tolerance : ℚ} {enum : List ℕ} :
    ∀ {fuel : ℕ} {diff : ℚ} {pr : List (ℕ × ℚ)} {lo : Adj}
      {fpr : List (ℕ × ℚ)} {flo : Adj} {i : ℕ} {fd : ℚ},
      prLoop li dampling_factor tax tolerance enum fuel diff pr lo = .ok (fpr, flo, i, fd) →
      i ≤ fuel := by
  intro fuel
  induction fuel with
  | zero =>
    intro diff pr lo fpr flo i fd h
    rw [prLoop] at h
    cases h
    exact le_refl 0
  | succ n ih =>
    intro diff pr lo fpr flo i fd h
    rw [prLoop] at h
    split at h
    · split at h
      · cases h
      · split at h
        · cases h
        · rename_i hrec
          cases h
          exact Nat.succ_le_succ (ih hrec)
    · cases h
      exact Nat.zero_le _

theorem prLoop_cap_or_converged {li : Adj} {dampling_factor tax tolerance : ℚ} {enum : List ℕ} :
    ∀ {fuel : ℕ} {diff : ℚ} {pr : List (ℕ × ℚ)} {lo : Adj}
      {fpr : List (ℕ × ℚ)} {flo : Adj} {i : ℕ} {fd : ℚ},
      prLoop li dampling_factor tax tolerance enum fuel diff pr lo = .ok (fpr, flo, i, fd) →
      i < fuel → fd ≤ tolerance := by
  intro fuel
  induction fuel with
  | zero =>
    intro diff pr lo fpr flo i fd h hlt
    exact absurd hlt (Nat.not_lt_zero _)
  | succ n ih =>
    intro diff pr lo fpr flo i fd h hlt
    rw [prLoop] at h
    split at h
    · split at h
      · cases h
      · split at h
        · cases h
        · rename_i hrec
          cases h
          exact ih hrec (Nat.lt_of_succ_lt_succ hlt)
    · rename_i hc
      cases h
      exact le_of_not_lt hc

theorem prLoop_stops_at_once {li : Adj} {dampling_factor tax tolerance : ℚ} {enum : List ℕ}
    (fuel : ℕ) {diff : ℚ} (pr : List (ℕ × ℚ)) (lo : Adj) (h : diff ≤ tolerance) :
    prLoop li dampling_factor tax tolerance enum fuel diff pr lo = .ok (pr, lo, 0, diff) := by
  cases fuel with
  | zero => rw [prLoop]
  | succ n => rw [prLoop, if_neg (not_lt_of_le h)]

theorem prLoop_at_least_one {li : Adj} {dampling_factor tax tolerance : ℚ} {enum : List ℕ}
    {fuel : ℕ} {diff : ℚ} {pr : List (ℕ × ℚ)} {lo : Adj}
    {fpr : List (ℕ × ℚ)} {flo : Adj} {i : ℕ} {fd : ℚ}
    (hfuel : 0 < fuel) (hdiff : tolerance < diff)
    (h : prLoop li dampling_factor tax tolerance enum fuel diff pr lo = .ok (fpr, flo, i, fd)) :
    1 ≤ i := by
  cases fuel with
  | zero => exact absurd hfuel (lt_irrefl 0)
  | succ n =>
    rw [prLoop, if_pos hdiff] at h
    split at h
    · cases h
    · split at h
      · cases h
      · cases h
        exact Nat.succ_le_succ (Nat.zero_le _)

/-- State invariants through the loop: any property preserved by a
successful update (together with invariance of the threaded `link_out`)
holds of the final vector, and the threaded dictionary comes back
unchanged. -/
theorem prLoop_invariant {li lo : Adj} {dampling_factor tax tolerance : ℚ} {enum : List ℕ}
    (P : List (ℕ × ℚ) → Prop)
    (hstep : ∀ pr npr lo₁, P pr →
      iter_compute_new_pr li dampling_factor tax pr lo = .ok (npr, lo₁) → P npr ∧ lo₁ = lo) :
    ∀ {fuel : ℕ} {diff : ℚ} {pr : List (ℕ × ℚ)}
      {fpr : List (ℕ × ℚ)} {flo : Adj} {i : ℕ} {fd : ℚ}, P pr →
      prLoop li dampling_factor tax tolerance enum fuel diff pr lo = .ok (fpr, flo, i, fd) →
      P fpr ∧ flo = lo := by
  intro fuel
  induction fuel with
  | zero =>
    intro diff pr fpr flo i fd hP h
    rw [prLoop] at h
    cases h
    exact ⟨hP, rfl⟩
  | succ n ih =>
    intro diff pr fpr flo i fd hP h
    rw [prLoop] at h
    split at h
    · split at h
      · cases h
      · rename_i npr lo₁ hstep_eq
        obtain ⟨hPnpr, rfl⟩ := hstep pr npr lo₁ hP hstep_eq
        split at h
        · cases h
        · rename_i hrec
          cases h
          exact ih hPnpr hrec
    · cases h
      exact ⟨hP, rfl⟩

/-- Totality of the loop: when every reachable update succeeds (all
denominators are nonzero), the loop always returns `ok`. -/
theorem prLoop_total {li lo : Adj} {dampling_factor tax tolerance : ℚ} {enum : List ℕ}
    (P : List (ℕ × ℚ) → Prop)
    (hstep : ∀ pr, P pr →
      ∃ npr, iter_compute_new_pr li dampling_factor tax pr lo = .ok (npr, lo) ∧ P npr) :
    ∀ (fuel : ℕ) (diff : ℚ) (pr : List (ℕ × ℚ)), P pr →
      ∃ r, prLoop li dampling_factor tax tolerance enum fuel diff pr lo = .ok r := by
  intro fuel
  induction fuel with
  | zero =>
    intro diff pr hP
    exact ⟨(pr, lo, 0, diff), by rw [prLoop]⟩
  | succ n ih =>
    intro diff pr hP
    by_cases hc : tolerance < diff
    · obtain ⟨npr, hstep_eq, hPnpr⟩ := hstep pr hP
      obtain ⟨r, hr⟩ := ih (compute_diff enum npr pr) npr hPnpr
      obtain ⟨fpr, flo, i, fd⟩ := r
      refine ⟨(fpr, flo, i + 1, fd), ?_⟩
      rw [prLoop, if_pos hc]
      simp only [hstep_eq, hr]
    · exact ⟨(pr, lo, 0, diff), by rw [prLoop, if_neg hc]⟩

/-- `page_rank_full` on a nonempty node enumeration, reduced to the loop. -/
theorem page_rank_full_def {g : SparseGraph} {enum : List ℕ} (h : enum ≠ [])
    (mi : ℕ) (tol d : ℚ) :
    page_rank_full g enum mi tol d =
      match prLoop g.link_in d ((1 - d) * (1 / (enum.length : ℚ))) tol enum mi 1
          (enum.map fun n => (n, 1 / (enum.length : ℚ))) g.link_out with
      | .error err => .error err
      | .ok (fpr, flo, i, fdiff) =>
        .ok ⟨sortDesc fpr, fpr, { g with link_out := flo }, i, fdiff⟩ := by
  have hlen : ¬ enum.length = 0 := fun hh => h (List.length_eq_zero.mp hh)
  rw [page_rank_full]
  simp only [if_neg hlen]

/-! ## The stable descending sort, characterised -/

theorem insertDesc_perm (a : ℕ × ℚ) (l : List (ℕ × ℚ)) : (insertDesc a l).Perm (a :: l) := by
  induction l with
  | nil => exact List.Perm.refl _
  | cons b l ih =>
    rw [insertDesc]
    split
    · exact List.Perm.refl _
    · exact (ih.cons b).trans (List.Perm.swap a b l)

theorem sortDesc_perm (l : List (ℕ × ℚ)) : (sortDesc l).Perm l := by
  induction l with
  | nil => exact List.Perm.refl _
  | cons a l ih => exact (insertDesc_perm a (sortDesc l)).trans (ih.cons a)

theorem insertDesc_sorted {l : List (ℕ × ℚ)} (a : ℕ × ℚ)
    (h : l.Pairwise (fun x y => y.2 ≤ x.2)) :
    (insertDesc a l).Pairwise (fun x y => y.2 ≤ x.2) := by
  induction l with
  | nil => simp [insertDesc]
  | cons b l ih =>
    rw [List.pairwise_cons] at h
    rw [insertDesc]
    split
    · rename_i hba
      rw [List.pairwise_cons]
      refine ⟨?_, List.pairwise_cons.mpr h⟩
      intro y hy
      rcases List.mem_cons.mp hy with rfl | hyl
      · exact hba
      · exact le_trans (h.1 y hyl) hba
    · rename_i hba
      rw [List.pairwise_cons]
      refine ⟨?_, ih h.2⟩
      intro y hy
      rcases List.mem_cons.mp ((insertDesc_perm a l).mem_iff.mp hy) with rfl | hyl
      · exact le_of_lt (lt_of_not_le hba)
      · exact h.1 y hyl

theorem sortDesc_sorted (l : List (ℕ × ℚ)) :
    (sortDesc l).Pairwise (fun x y => y.2 ≤ x.2) := by
  induction l with
  | nil => simp [sortDesc]
  | cons a l ih => exact insertDesc_sorted a ih

theorem insertDesc_filter (a : ℕ × ℚ) (l : List (ℕ × ℚ)) (q : ℚ) :
    (insertDesc a l).filter (fun p => p.2 = q) =
      if a.2 = q then a :: l.filter (fun p => p.2 = q)
      else l.filter (fun p => p.2 = q) := by
  induction l with
  | nil =>
    rw [insertDesc]
    by_cases ha : a.2 = q
    · rw [if_pos ha]
      simp [List.filter, ha]
    · rw [if_neg ha]
      simp [List.filter, ha]
  | cons b l ih =>
    rw [insertDesc]
    by_cases hle : b.2 ≤ a.2
    · rw [if_pos hle]
      by_cases ha : a.2 = q
      · rw [if_pos ha]
        simp [List.filter_cons, ha]
      · rw [if_neg ha]
        simp [List.filter_cons, ha]
    · rw [if_neg hle]
      have hba : a.2 < b.2 := lt_of_not_le hle
      by_cases hb : b.2 = q
      · have ha : ¬ a.2 = q := by
          intro hh
          rw [hh, ← hb] at hba
          exact absurd hba (lt_irrefl _)
        rw [if_neg ha, List.filter_cons, if_pos (by simp [hb]), List.filter_cons,
          if_pos (by simp [hb]), ih, if_neg ha]
      · by_cases ha : a.2 = q
        · rw [if_pos ha, List.filter_cons, if_neg (by simp [hb]), List.filter_cons,
            if_neg (by simp [hb]), ih, if_pos ha]
        · rw [if_neg ha, List.filter_cons, if_neg (by simp [hb]), List.filter_cons,
            if_neg (by simp [hb]), ih, if_neg ha]

/-- Stability of the final sort: within one score class the output order is
exactly the input order. -/
theorem sortDesc_filter (l : List (ℕ × ℚ)) (q : ℚ) :
    (sortDesc l).filter (fun p => p.2 = q) = l.filter (fun p => p.2 = q) := by
  induction l with
  | nil => rfl
  | cons a l ih =>
    rw [sortDesc, insertDesc_filter, List.filter_cons]
    by_cases ha : a.2 = q
    · rw [if_pos ha, if_pos (by simp [ha]), ih]
    · rw [if_neg ha, if_neg (by simp [ha]), ih]

/-! ## Summation machinery for the score bounds -/

/-- A keyed sum over a deterministic enumeration equals the sum over the
dictionary entries, provided every key is enumerated exactly once. -/
theorem sum_map_dictGetD {α : Type} (m : List (ℕ × α)) (enum : List ℕ) (G : α → ℚ) (d₀ : α)
    (hG : G d₀ = 0) (hkeys : (m.map Prod.fst).Nodup) (henum : enum.Nodup)
    (hsub : ∀ p ∈ m, p.1 ∈ enum) :
    (enum.map (fun v => G (dictGetD m v d₀))).sum = (m.map (fun p => G p.2)).sum := by
  induction m generalizing enum with
  | nil =>
    simp [dictGetD, dictGet, hG]
  | cons p rest ih =>
    obtain ⟨k, a⟩ := p
    have hk : k ∈ enum := hsub (k, a) (List.mem_cons_self _ _)
    rw [List.map_cons, List.nodup_cons] at hkeys
    have h1 : (enum.map (fun v => G (dictGetD ((k, a) :: rest) v d₀))).sum
        = ((k :: enum.erase k).map (fun v => G (dictGetD ((k, a) :: rest) v d₀))).sum :=
      (((List.perm_cons_erase hk).map _).sum_eq)
    rw [h1, List.map_cons, List.sum_cons,
      show dictGetD ((k, a) :: rest) k d₀ = a by simp [dictGetD, dictGet]]
    have h3 : ((enum.erase k).map (fun v => G (dictGetD ((k, a) :: rest) v d₀)))
        = ((enum.erase k).map (fun v => G (dictGetD rest v d₀))) := by
      refine List.map_congr_left ?_
      intro v hv
      have hvne : v ≠ k := (henum.mem_erase_iff.mp hv).1
      simp [dictGetD, dictGet, hvne]
    rw [h3, ih (enum.erase k) hkeys.2 (henum.erase k) ?_, List.map_cons, List.sum_cons]
    intro q hq
    refine henum.mem_erase_iff.mpr ⟨?_, hsub q (List.mem_cons_of_mem _ hq)⟩
    intro hqk
    exact hkeys.1 (hqk ▸ List.mem_map.mpr ⟨q, hq, rfl⟩)

/-- Summing a function of the triples entry by entry. -/
theorem sum_triples {α : Type} (f : ℕ → Edge → α) (φ : α → ℚ) (m : Adj) :
    ((triples f m).map φ).sum
      = (m.map (fun p => ((p.2.map (fun e => φ (f p.1 e))).sum))).sum := by
  induction m with
  | nil => rfl
  | cons p rest ih =>
    obtain ⟨k, es⟩ := p
    rw [triples_cons, List.map_append, List.sum_append, ih, List.map_cons, List.sum_cons,
      List.map_map]
    rfl

/-- The contribution of one `(source, target, weight)` triple. -/
def triTerm (lo : Adj) (pr : List (ℕ × ℚ)) (tr : ℕ × ℕ × ℚ) : ℚ :=
  tr.2.2 * dictGetD pr tr.1 0 / sumWeights (dictGetD lo tr.1 [])

theorem sumWeights_nonneg {es : EdgeSet} (h : ∀ e ∈ es, 0 ≤ e.weight) : 0 ≤ sumWeights es := by
  refine List.sum_nonneg ?_
  intro x hx
  obtain ⟨e, he, rfl⟩ := List.mem_map.mp hx
  exact h e he

theorem prGet_nonneg {pr : List (ℕ × ℚ)} (h : ∀ p ∈ pr, 0 ≤ p.2) (k : ℕ) :
    0 ≤ dictGetD pr k 0 := by
  rw [dictGetD]
  cases heq : dictGet pr k with
  | none => exact le_refl 0
  | some v => exact h (k, v) (dictGet_mem heq)

theorem getD_weight_nonneg {lo : Adj} (hw : ∀ p ∈ lo, ∀ e ∈ (p.2 : EdgeSet), 0 ≤ e.weight)
    (k : ℕ) : ∀ e ∈ dictGetD lo k [], 0 ≤ e.weight := by
  intro e he
  rw [dictGetD] at he
  cases heq : dictGet lo k with
  | none => rw [heq] at he; simp at he
  | some es =>
    rw [heq] at he
    exact hw (k, es) (dictGet_mem heq) e he

theorem edgeTerm_nonneg {lo : Adj} {pr : List (ℕ × ℚ)} {e : Edge}
    (hw : ∀ p ∈ lo, ∀ e' ∈ (p.2 : EdgeSet), 0 ≤ e'.weight)
    (hpr : ∀ p ∈ pr, 0 ≤ p.2) (hew : 0 ≤ e.weight) : 0 ≤ edgeTerm lo pr e := by
  rw [edgeTerm]
  exact div_nonneg (mul_nonneg hew (prGet_nonneg hpr _))
    (sumWeights_nonneg (getD_weight_nonneg hw _))

/-- Weights of incoming-index entries are non-negative when the outgoing
weights are (through the mirror). -/
theorem wf_in_entry_weight_nonneg {g : SparseGraph} (hwf : WF g)
    (hw : ∀ p ∈ g.link_out, ∀ e ∈ (p.2 : EdgeSet), 0 ≤ e.weight) :
    ∀ p ∈ g.link_in, ∀ e ∈ (p.2 : EdgeSet), 0 ≤ e.weight := by
  intro p hp e he
  have htr : (e.to_node, p.1, e.weight) ∈ inT g.link_in :=
    @mem_triples_of _ (fun v e => (e.to_node, v, e.weight)) _ _ _ _ (by exact hp) he
  obtain ⟨q, hq, e', he', heq'⟩ := mem_triples_elim (hwf.mirror.subset htr)
  have hwt : e'.weight = e.weight := congrArg (Prod.snd ∘ Prod.snd) heq'
  exact hwt ▸ hw q hq e' he'

theorem triTerm_nonneg_of_inT {g : SparseGraph} (hwf : WF g)
    (hw : ∀ p ∈ g.link_out, ∀ e ∈ (p.2 : EdgeSet), 0 ≤ e.weight)
    {pr : List (ℕ × ℚ)} (hpr : ∀ p ∈ pr, 0 ≤ p.2) :
    ∀ tr ∈ inT g.link_in, 0 ≤ triTerm g.link_out pr tr := by
  intro tr htr
  obtain ⟨p, hp, e, he, heq⟩ := mem_triples_elim htr
  have hew : 0 ≤ e.weight := wf_in_entry_weight_nonneg hwf hw p hp e he
  have : triTerm g.link_out pr (e.to_node, p.1, e.weight) = edgeTerm g.link_out pr e := rfl
  rw [← heq, this]
  exact edgeTerm_nonneg hw hpr hew

/-- Total raw inflow over all nodes equals the sum over all incoming-index
triples. -/
theorem sum_inflow_eq_totalIn {g : SparseGraph} (hwf : WF g) {enum : List ℕ}
    (henum : enum.Perm g.nodes) (pr : List (ℕ × ℚ)) :
    (enum.map (fun v => ((dictGetD g.link_in v []).map (edgeTerm g.link_out pr)).sum)).sum
      = ((inT g.link_in).map (triTerm g.link_out pr)).sum := by
  rw [sum_map_dictGetD g.link_in enum
      (fun es => (es.map (edgeTerm g.link_out pr)).sum) [] rfl hwf.in_keys_nodup
      (henum.nodup_iff.mpr hwf.nodes_nodup)
      (fun p hp => henum.mem_iff.mpr (hwf.in_keys_mem p hp)),
    inT, sum_triples (fun v e => (e.to_node, v, e.weight)) (triTerm g.link_out pr) g.link_in]
  rfl

theorem totalIn_eq_li_sum (g : SparseGraph) (pr : List (ℕ × ℚ)) :
    ((inT g.link_in).map (triTerm g.link_out pr)).sum
      = (g.link_in.map (fun p => ((p.2 : EdgeSet).map (edgeTerm g.link_out pr)).sum)).sum := by
  rw [inT, sum_triples]
  rfl

theorem sum_enum_prGet {pr : List (ℕ × ℚ)} {enum : List ℕ} (hkeys : pr.map Prod.fst = enum)
    (henum : enum.Nodup) :
    (enum.map (fun v => dictGetD pr v 0)).sum = (pr.map Prod.snd).sum := by
  exact sum_map_dictGetD pr enum id 0 rfl (hkeys ▸ henum) henum
    (fun p hp => hkeys ▸ List.mem_map.mpr ⟨p, hp, rfl⟩)

theorem sum_over_keys_le {pr : List (ℕ × ℚ)} {enum : List ℕ} (hkeys : pr.map Prod.fst = enum)
    (henum : enum.Nodup) (hpr0 : ∀ p ∈ pr, 0 ≤ p.2)
    {ks : List ℕ} (hks : ks.Nodup) (hsub : ∀ k ∈ ks, k ∈ enum) :
    (ks.map (fun k => dictGetD pr k 0)).sum ≤ (pr.map Prod.snd).sum := by
  obtain ⟨l', hperm, hsl⟩ := List.subperm_of_subset hks hsub
  have h1 : (ks.map (fun k => dictGetD pr k 0)).sum
      = (l'.map (fun k => dictGetD pr k 0)).sum := ((hperm.map _).sum_eq).symm
  have h2 : (l'.map (fun k => dictGetD pr k 0)).sum
      ≤ (enum.map (fun k => dictGetD pr k 0)).sum := by
    refine List.Sublist.sum_le_sum (hsl.map _) ?_
    intro x hx
    obtain ⟨k, hk, rfl⟩ := List.mem_map.mp hx
    exact prGet_nonneg hpr0 k
  rw [h1]
  exact le_of_le_of_eq h2 (sum_enum_prGet hkeys henum)

/-- The heart of the conservation bound: the total of all triple terms is at
most the total current score. -/
theorem totalIn_le {g : SparseGraph} (hwf : WF g) {enum : List ℕ} (henum : enum.Perm g.nodes)
    {pr : List (ℕ × ℚ)} (hkeys : pr.map Prod.fst = enum) (hpr0 : ∀ p ∈ pr, 0 ≤ p.2) :
    ((inT g.link_in).map (triTerm g.link_out pr)).sum ≤ (pr.map Prod.snd).sum := by
  have hmirror : ((inT g.link_in).map (triTerm g.link_out pr)).sum
      = ((outT g.link_out).map (triTerm g.link_out pr)).sum := (hwf.mirror.map _).sum_eq
  rw [hmirror, outT, sum_triples]
  have hstep : ∀ p ∈ g.link_out,
      (((p.2 : EdgeSet)).map
        (fun e => triTerm g.link_out pr ((fun u e => (u, e.to_node, e.weight)) p.1 e))).sum
        ≤ dictGetD pr p.1 0 := by
    intro p hp
    have hgetd : dictGetD g.link_out p.1 [] = p.2 := by
      rw [dictGetD, dictGet_eq_some_of_mem hwf.out_keys_nodup
        (show (p.1, p.2) ∈ g.link_out from hp)]
      rfl
    have hre : ((p.2 : EdgeSet).map
          (fun e => triTerm g.link_out pr ((fun u e => (u, e.to_node, e.weight)) p.1 e)))
        = ((p.2 : EdgeSet).map
          (fun e => e.weight * (dictGetD pr p.1 0 / sumWeights (p.2 : EdgeSet)))) := by
      refine List.map_congr_left ?_
      intro e he
      show e.weight * dictGetD pr p.1 0 / sumWeights (dictGetD g.link_out p.1 []) = _
      rw [hgetd, mul_div_assoc]
    rw [hre, List.sum_map_mul_right]
    by_cases hS : sumWeights (p.2 : EdgeSet) = 0
    · rw [show ((p.2 : EdgeSet).map Edge.weight).sum = sumWeights p.2 from rfl, hS, zero_mul]
      exact prGet_nonneg hpr0 _
    · rw [show ((p.2 : EdgeSet).map Edge.weight).sum = sumWeights p.2 from rfl, mul_comm,
        div_mul_cancel₀ _ hS]
  refine (List.sum_le_sum hstep).trans ?_
  rw [show (g.link_out.map (fun p => dictGetD pr p.1 0))
      = ((g.link_out.map Prod.fst).map (fun k => dictGetD pr k 0)) by rw [List.map_map]; rfl]
  refine sum_over_keys_le hkeys (henum.nodup_iff.mpr hwf.nodes_nodup) hpr0
    hwf.out_keys_nodup ?_
  intro k hk
  obtain ⟨p, hp, rfl⟩ := List.mem_map.mp hk
  exact henum.mem_iff.mpr (hwf.out_keys_mem p hp)

theorem inflow_nonneg {g : SparseGraph} (hwf : WF g)
    (hw : ∀ p ∈ g.link_out, ∀ e ∈ (p.2 : EdgeSet), 0 ≤ e.weight)
    {pr : List (ℕ × ℚ)} (hpr0 : ∀ p ∈ pr, 0 ≤ p.2) (v : ℕ) :
    0 ≤ ((dictGetD g.link_in v []).map (edgeTerm g.link_out pr)).sum := by
  refine List.sum_nonneg ?_
  intro x hx
  obtain ⟨e, he, rfl⟩ := List.mem_map.mp hx
  exact edgeTerm_nonneg hw hpr0
    (getD_weight_nonneg (wf_in_entry_weight_nonneg hwf hw) v e he)

theorem inflow_le_totalIn {g : SparseGraph} (hwf : WF g)
    (hw : ∀ p ∈ g.link_out, ∀ e ∈ (p.2 : EdgeSet), 0 ≤ e.weight)
    {pr : List (ℕ × ℚ)} (hpr0 : ∀ p ∈ pr, 0 ≤ p.2) (v : ℕ) :
    ((dictGetD g.link_in v []).map (edgeTerm g.link_out pr)).sum
      ≤ ((inT g.link_in).map (triTerm g.link_out pr)).sum := by
  have hnn : ∀ x ∈ (g.link_in.map (fun p => ((p.2 : EdgeSet).map (edgeTerm g.link_out pr)).sum)),
      0 ≤ x := by
    intro x hx
    obtain ⟨p, hp, rfl⟩ := List.mem_map.mp hx
    refine List.sum_nonneg ?_
    intro y hy
    obtain ⟨e, he, rfl⟩ := List.mem_map.mp hy
    exact edgeTerm_nonneg hw hpr0 (wf_in_entry_weight_nonneg hwf hw p hp e he)
  rw [totalIn_eq_li_sum, dictGetD]
  cases heq : dictGet g.link_in v with
  | none =>
    simpa using List.sum_nonneg hnn
  | some es =>
    exact List.single_le_sum hnn _
      (List.mem_map.mpr ⟨(v, es), dictGet_mem heq, rfl⟩)

/-! ## Invariants of one update step -/

/-- The invariant the score dictionary keeps through the whole computation:
keys in set-iteration order, each score in `[0, 1]`, total at most `1`. -/
def PRBounds (enum : List ℕ) (pr : List (ℕ × ℚ)) : Prop :=
  pr.map Prod.fst = enum ∧ (∀ p ∈ pr, 0 ≤ p.2 ∧ p.2 ≤ 1) ∧ (pr.map Prod.snd).sum ≤ 1

/-- A successful update keeps the key list and leaves the threaded
`link_out` dictionary untouched. -/
theorem step_keys {g : SparseGraph} (hwf : WF g) {enum : List ℕ}
    {d tax : ℚ} {pr npr : List (ℕ × ℚ)} {lo' : Adj} (hkeys : pr.map Prod.fst = enum)
    (h : iter_compute_new_pr g.link_in d tax pr g.link_out = .ok (npr, lo')) :
    npr.map Prod.fst = enum ∧ lo' = g.link_out := by
  rw [iter_compute_new_pr] at h
  obtain ⟨rfl, hnpr⟩ := iterKeys_ok (fun v _ => wf_sources_isSome hwf v) h
  refine ⟨?_, rfl⟩
  rw [hnpr, List.map_map]
  simpa using hkeys

/-- When every non-empty outgoing set has a nonzero weight sum, every
denominator the update can reach is nonzero. -/
theorem wf_source_outsum_ne {g : SparseGraph} (hwf : WF g)
    (hpos : ∀ p ∈ g.link_out, (p.2 : EdgeSet) = [] ∨ sumWeights p.2 ≠ 0) :
    ∀ v : ℕ, ∀ e ∈ dictGetD g.link_in v [],
      sumWeights (dictGetD g.link_out e.to_node []) ≠ 0 := by
  intro v e he
  rw [dictGetD] at he
  cases heq : dictGet g.link_in v with
  | none => rw [heq] at he; simp at he
  | some es =>
    rw [heq] at he
    have htr : (e.to_node, v, e.weight) ∈ inT g.link_in :=
      @mem_triples_of _ (fun v e => (e.to_node, v, e.weight)) _ _ _ _ (dictGet_mem heq) he
    obtain ⟨p, hp, e', he', heq'⟩ := mem_triples_elim (hwf.mirror.subset htr)
    have hfst : p.1 = e.to_node := congrArg Prod.fst heq'
    have hsome : dictGet g.link_out e.to_node = some p.2 :=
      hfst ▸ dictGet_eq_some_of_mem hwf.out_keys_nodup
        (show (p.1, p.2) ∈ g.link_out from hp)
    rw [dictGetD, hsome]
    rcases hpos p hp with hnil | hne
    · rw [hnil] at he'
      simp at he'
    · exact hne

/-- A successful update with the tax `page_rank` uses keeps all scores in
`[0, 1]` and the total at most `1`. -/
theorem step_preserves_bounds {g : SparseGraph} (hwf : WF g) {enum : List ℕ}
    (henum : enum.Perm g.nodes) (hne : enum ≠ [])
    (hw : ∀ p ∈ g.link_out, ∀ e ∈ (p.2 : EdgeSet), 0 ≤ e.weight)
    {d : ℚ} (hd0 : 0 ≤ d) (hd1 : d ≤ 1)
    {pr npr : List (ℕ × ℚ)} {lo' : Adj} (hP : PRBounds enum pr)
    (h : iter_compute_new_pr g.link_in d ((1 - d) * (1 / (enum.length : ℚ))) pr g.link_out
      = .ok (npr, lo')) :
    PRBounds enum npr ∧ lo' = g.link_out := by
  obtain ⟨hkeys, hent, hsum⟩ := hP
  have hpr0 : ∀ p ∈ pr, 0 ≤ p.2 := fun p hp => (hent p hp).1
  have hNpos : (0 : ℚ) < (enum.length : ℚ) := by
    exact_mod_cast List.length_pos.mpr hne
  have hinvN0 : (0 : ℚ) ≤ 1 / (enum.length : ℚ) := le_of_lt (by positivity)
  have hinvN1 : 1 / (enum.length : ℚ) ≤ 1 := by
    rw [div_le_one hNpos]
    exact_mod_cast List.length_pos.mpr hne
  have htax0 : (0 : ℚ) ≤ (1 - d) * (1 / (enum.length : ℚ)) :=
    mul_nonneg (by linarith) hinvN0
  have htax_le : (1 - d) * (1 / (enum.length : ℚ)) ≤ 1 - d :=
    mul_le_of_le_one_right (by linarith) hinvN1
  have hinfl0 : ∀ v : ℕ, 0 ≤ ((dictGetD g.link_in v []).map (edgeTerm g.link_out pr)).sum :=
    inflow_nonneg hwf hw hpr0
  have hinfl1 : ∀ v : ℕ, ((dictGetD g.link_in v []).map (edgeTerm g.link_out pr)).sum ≤ 1 :=
    fun v => (inflow_le_totalIn hwf hw hpr0 v).trans
      ((totalIn_le hwf henum hkeys hpr0).trans hsum)
  rw [iter_compute_new_pr] at h
  obtain ⟨rfl, hnpr⟩ := iterKeys_ok (fun v _ => wf_sources_isSome hwf v) h
  rw [hkeys] at hnpr
  refine ⟨⟨?_, ?_, ?_⟩, rfl⟩
  · rw [hnpr, List.map_map]
    exact List.map_id enum
  · intro p hp
    rw [hnpr] at hp
    obtain ⟨v, hv, rfl⟩ := List.mem_map.mp hp
    rw [newScore]
    constructor
    · exact add_nonneg (mul_nonneg (hinfl0 v) hd0) htax0
    · have h1 : ((dictGetD g.link_in v []).map (edgeTerm g.link_out pr)).sum * d ≤ 1 * d :=
        mul_le_mul_of_nonneg_right (hinfl1 v) hd0
      rw [one_mul] at h1
      linarith
  · rw [hnpr, List.map_map]
    have hmaps : (enum.map (Prod.snd ∘ fun v =>
        (v, newScore g.link_in g.link_out d ((1 - d) * (1 / (enum.length : ℚ))) pr v)))
        = enum.map (fun v =>
          ((dictGetD g.link_in v []).map (edgeTerm g.link_out pr)).sum * d
            + (1 - d) * (1 / (enum.length : ℚ))) := rfl
    rw [hmaps, List.sum_map_add, List.sum_map_mul_right,
      sum_inflow_eq_totalIn hwf henum pr]
    have h1 : ((inT g.link_in).map (triTerm g.link_out pr)).sum * d ≤ 1 * d :=
      mul_le_mul_of_nonneg_right ((totalIn_le hwf henum hkeys hpr0).trans hsum) hd0
    have h2 : (enum.map (fun _ =>
        (1 - d) * (1 / (enum.length : ℚ)))).sum
        = (enum.length : ℚ) * ((1 - d) * (1 / (enum.length : ℚ))) := by
      rw [List.map_const', List.sum_replicate, nsmul_eq_mul]
    have h3 : (enum.length : ℚ) * ((1 - d) * (1 / (enum.length : ℚ))) = 1 - d := by
      field_simp
    rw [h2, h3]
    linarith

/-! ## Symbolic evaluation helpers for concrete runs

Rational arithmetic in the kernel cannot evaluate `Nat.gcd`-based
normalisation, so concrete executions are established through these
symbolic lemmas instead of `rfl`. -/

theorem dictGetD_map_const {enum : List ℕ} {n : ℕ} (h : n ∈ enum) (x : ℚ) :
    dictGetD (enum.map (fun m => (m, x))) n 0 = x := by
  induction enum with
  | nil => simp at h
  | cons a rest ih =>
    rw [List.map_cons, dictGetD, dictGet]
    by_cases hn : n = a
    · rw [if_pos hn]
      rfl
    · rw [if_neg hn]
      have hmem : n ∈ rest := by
        rcases List.mem_cons.mp h with h1 | h2
        · exact absurd h1 hn
        · exact h2
      simpa [dictGetD] using ih hmem

theorem foldr_max_zero_const {c : ℚ} (hc : 0 ≤ c) :
    ∀ k : ℕ, (List.replicate (k + 1) c).foldr max 0 = c := by
  intro k
  induction k with
  | zero =>
    rw [List.replicate, List.replicate, List.foldr]
    exact max_eq_left hc
  | succ m ih =>
    rw [List.replicate, List.foldr, ih, max_self]

theorem compute_diff_const {enum : List ℕ} (hne : enum ≠ []) (x y : ℚ) :
    compute_diff enum (enum.map (fun m => (m, x))) (enum.map (fun m => (m, y))) = |x - y| := by
  rw [compute_diff]
  have h1 : enum.map (fun n => |dictGetD (enum.map (fun m => (m, x))) n 0
      - dictGetD (enum.map (fun m => (m, y))) n 0|) = enum.map (fun _ => |x - y|) := by
    refine List.map_congr_left ?_
    intro n hn
    rw [dictGetD_map_const hn x, dictGetD_map_const hn y]
  rw [h1, List.map_const']
  obtain ⟨a, rest, rfl⟩ : ∃ a rest, enum = a :: rest := by
    cases enum with
    | nil => exact absurd rfl hne
    | cons a r => exact ⟨a, r, rfl⟩
  rw [List.length_cons]
  exact foldr_max_zero_const (abs_nonneg _) rest.length

theorem iterKeys_edgeless (d tax : ℚ) (pr : List (ℕ × ℚ)) (keys : List ℕ) :
    iterKeys [] d tax pr keys [] = .ok (keys.map (fun v => (v, 0 * d + tax)), []) := by
  induction keys with
  | nil => rfl
  | cons v rest ih =>
    simp [iterKeys, dictGetD, dictGet, iterInner, ih]

theorem edgeless_step (d tax : ℚ) (pr : List (ℕ × ℚ)) :
    iter_compute_new_pr [] d tax pr []
      = .ok ((pr.map Prod.fst).map (fun v => (v, 0 * d + tax)), []) :=
  iterKeys_edgeless d tax pr (pr.map Prod.fst)

/-- A list already sorted by descending score is a fixed point of the
stable sort. -/
theorem sortDesc_of_sorted {l : List (ℕ × ℚ)} (h : l.Pairwise (fun x y => y.2 ≤ x.2)) :
    sortDesc l = l := by
  induction l with
  | nil => rfl
  | cons a l ih =>
    rw [List.pairwise_cons] at h
    rw [sortDesc, ih h.2]
    cases l with
    | nil => rfl
    | cons b rest =>
      rw [insertDesc, if_pos (h.1 b (List.mem_cons_self _ _))]

/-- On a graph with no edges at all the run is fully determined: one update
drops every score to the tax, the next confirms it, and the loop stops
after exactly two iterations with the constant vector `(1 - d) / N`. -/
theorem edgeless_run {g : SparseGraph} (hin : g.link_in = []) (hout : g.link_out = [])
    {enum : List ℕ} (hne : enum ≠ []) {mi : ℕ} (hmi : 2 ≤ mi) {tol d : ℚ}
    (htol0 : 0 ≤ tol) (htol1 : tol < 1)
    (htold : tol < d * (1 / (enum.length : ℚ))) :
    page_rank_full g enum mi tol d =
      .ok ⟨enum.map (fun m => (m, (1 - d) * (1 / (enum.length : ℚ)))),
           enum.map (fun m => (m, (1 - d) * (1 / (enum.length : ℚ)))), g, 2, 0⟩ := by
  obtain ⟨k, rfl⟩ : ∃ k, mi = (k + 1) + 1 := ⟨mi - 2, by omega⟩
  obtain ⟨gn, glo, gli⟩ := g
  have hgli : gli = [] := hin
  have hglo : glo = [] := hout
  subst hgli
  subst hglo
  have hNpos : (0 : ℚ) < (enum.length : ℚ) := by
    exact_mod_cast List.length_pos.mpr hne
  have hd0 : 0 < d := by
    by_contra hcon
    push_neg at hcon
    have h1 : d * (1 / (enum.length : ℚ)) ≤ 0 :=
      mul_nonpos_of_nonpos_of_nonneg hcon (by positivity)
    linarith
  have hkeys₀ : (enum.map (fun n => (n, (1 : ℚ) / (enum.length : ℚ)))).map Prod.fst = enum := by
    rw [List.map_map]
    exact List.map_id enum
  have hkeys₁ : (enum.map (fun v =>
      (v, (1 - d) * (1 / (enum.length : ℚ))))).map Prod.fst = enum := by
    rw [List.map_map]
    exact List.map_id enum
  have hsimp₁ : (enum.map (fun v => (v, (0 : ℚ) * d + (1 - d) * (1 / (enum.length : ℚ)))))
      = enum.map (fun v => (v, (1 - d) * (1 / (enum.length : ℚ)))) := by
    simp
  have hstep₁ : iter_compute_new_pr ([] : Adj) d ((1 - d) * (1 / (enum.length : ℚ)))
      (enum.map (fun n => (n, (1 : ℚ) / (enum.length : ℚ)))) ([] : Adj)
      = .ok (enum.map (fun v => (v, (1 - d) * (1 / (enum.length : ℚ)))), []) := by
    rw [edgeless_step, hkeys₀, hsimp₁]
  have hstep₂ : iter_compute_new_pr ([] : Adj) d ((1 - d) * (1 / (enum.length : ℚ)))
      (enum.map (fun v => (v, (1 - d) * (1 / (enum.length : ℚ))))) ([] : Adj)
      = .ok (enum.map (fun v => (v, (1 - d) * (1 / (enum.length : ℚ)))), []) := by
    rw [edgeless_step, hkeys₁, hsimp₁]
  have hdiff₁ : compute_diff enum
      (enum.map (fun v => (v, (1 - d) * (1 / (enum.length : ℚ)))))
      (enum.map (fun n => (n, (1 : ℚ) / (enum.length : ℚ)))) = d * (1 / (enum.length : ℚ)) := by
    rw [compute_diff_const hne,
      show (1 - d) * (1 / (enum.length : ℚ)) - 1 / (enum.length : ℚ)
        = -(d * (1 / (enum.length : ℚ))) by ring,
      abs_neg, abs_of_pos (by positivity)]
  have hdiff₂ : compute_diff enum
      (enum.map (fun v => (v, (1 - d) * (1 / (enum.length : ℚ)))))
      (enum.map (fun v => (v, (1 - d) * (1 / (enum.length : ℚ))))) = 0 := by
    rw [compute_diff_const hne, sub_self, abs_zero]
  rw [page_rank_full_def hne, prLoop, if_pos htol1, hstep₁]
  simp only []
  rw [hdiff₁, prLoop, if_pos htold, hstep₂]
  simp only []
  rw [hdiff₂, prLoop_stops_at_once k _ _ htol0]
  have hsorted : sortDesc (enum.map (fun v => (v, (1 - d) * (1 / (enum.length : ℚ)))))
      = enum.map (fun v => (v, (1 - d) * (1 / (enum.length : ℚ)))) := by
    refine sortDesc_of_sorted ?_
    rw [List.pairwise_map]
    exact List.pairwise_iff_forall_sublist.mpr (fun _ => le_refl _)
  simp only [hsorted]

/-- On the one-node edgeless graph the default run stops after two
iterations at score `1 - 0.85 = 3/20`. -/
theorem single_node_run (n : ℕ) :
    page_rank_full (SparseGraph.empty.add_node n) [n] 10000 (1/10000) (17/20)
      = .ok ⟨[(n, 3/20)], [(n, 3/20)], SparseGraph.empty.add_node n, 2, 0⟩ := by
  rw [edgeless_run rfl rfl (List.cons_ne_nil _ _) (by norm_num) (by norm_num) (by norm_num)
    (by norm_num)]
  norm_num

/-- On the two-node edgeless graph (insertion order 2 then 1, set-iteration
order 1 then 2) the default run stops after two iterations with both scores
at `3/40`. -/
theorem two_node_run :
    page_rank_full ((SparseGraph.empty.add_node 2).add_node 1) [1, 2] 10000 (1/10000) (17/20)
      = .ok ⟨[(1, 3/40), (2, 3/40)], [(1, 3/40), (2, 3/40)],
          (SparseGraph.empty.add_node 2).add_node 1, 2, 0⟩ := by
  rw [edgeless_run rfl rfl (by decide) (by norm_num) (by norm_num) (by norm_num)
    (by norm_num)]
  norm_num

/-! ## The claims -/

/-- C1: on every graph built through the API, each iteration of `page_rank`
assigns node `v` the new score
`dampling_factor * (sum over incoming edges (u, weight) of
weight * pr[u] / (sum of weights of u's outgoing edges))
+ (1 - dampling_factor) * (1/N)` where `N` is the node count
(`enum` enumerates the node set, so `N = enum.length`). -/
theorem c1_iteration_update_formula {g : SparseGraph} (hg : Built g) {enum : List ℕ}
    (henum : enum.Perm g.nodes) {dampling_factor : ℚ}
    {pr npr : List (ℕ × ℚ)} {lo' : Adj} (hkeys : pr.map Prod.fst = enum)
    (h : iter_compute_new_pr g.link_in dampling_factor
      ((1 - dampling_factor) * (1 / (enum.length : ℚ))) pr g.link_out = .ok (npr, lo')) :
    ∀ v ∈ enum, dictGetD npr v 0 =
      dampling_factor * ((dictGetD g.link_in v []).map
        (fun e => e.weight * dictGetD pr e.to_node 0
          / sumWeights (dictGetD g.link_out e.to_node []))).sum
      + (1 - dampling_factor) * (1 / (enum.length : ℚ)) := by
  have hwf := built_wf hg
  rw [iter_compute_new_pr] at h
  obtain ⟨rfl, hnpr⟩ := iterKeys_ok (fun v _ => wf_sources_isSome hwf v) h
  rw [hkeys] at hnpr
  intro v hv
  have hnkeys : npr.map Prod.fst = enum := by
    rw [hnpr, List.map_map]
    exact List.map_id enum
  have hnodup : (npr.map Prod.fst).Nodup := by
    rw [hnkeys]
    exact henum.nodup_iff.mpr hwf.nodes_nodup
  have hmem : (v, newScore g.link_in g.link_out dampling_factor
      ((1 - dampling_factor) * (1 / (enum.length : ℚ))) pr v) ∈ npr :=
    hnpr ▸ List.mem_map.mpr ⟨v, hv, rfl⟩
  rw [dictGetD, dictGet_eq_some_of_mem hnodup hmem, Option.getD_some, newScore]
  have hfold : List.map (edgeTerm g.link_out pr) (dictGetD g.link_in v [])
      = List.map (fun e => e.weight * dictGetD pr e.to_node 0
          / sumWeights (dictGetD g.link_out e.to_node [])) (dictGetD g.link_in v []) := rfl
  rw [hfold]
  ring

/-- Witness for C1 on the one-edge graph `1 → 2` (weight 1) at the uniform
starting vector: node 1 gets no inflow, node 2 gets all of node 1's mass. -/
theorem c1_witness :
    dictGetD [(1, (3 : ℚ)/40), (2, (1 : ℚ)/2)] 2 0 =
      (17/20) * ((dictGetD (SparseGraph.empty.link 1 2 1).link_in 2 []).map
        (fun e => e.weight * dictGetD [(1, (1 : ℚ)/2), (2, (1 : ℚ)/2)] e.to_node 0
          / sumWeights (dictGetD (SparseGraph.empty.link 1 2 1).link_out e.to_node []))).sum
      + (1 - 17/20) * (1 / (([1, 2] : List ℕ).length : ℚ)) := by
  have hrun : iter_compute_new_pr (SparseGraph.empty.link 1 2 1).link_in (17/20)
      ((1 - 17/20) * (1 / (([1, 2] : List ℕ).length : ℚ))) [(1, 1/2), (2, 1/2)]
      (SparseGraph.empty.link 1 2 1).link_out
      = .ok ([(1, 3/40), (2, 1/2)], (SparseGraph.empty.link 1 2 1).link_out) := by
    norm_num [iter_compute_new_pr, iterKeys, iterInner, ddRead, dictGet, dictGetD,
      sumWeights, SparseGraph.link, SparseGraph.empty, ddAdd, setAdd]
  exact c1_iteration_update_formula (Built.link 1 2 1 Built.empty) (by decide) rfl hrun
    2 (by decide)

/-- C2: the loop runs at most `max_iteration` iterations; if it stopped
before the cap, the final L-infinity diff is at most `tolerance`; a state
whose diff is already within tolerance stops the loop at once with no
further iteration; reaching the cap still returns normally (the result in
the hypothesis), with no error raised. -/
theorem c2_loop_cap_and_convergence {g : SparseGraph} {enum : List ℕ} (hne : enum ≠ [])
    {max_iteration : ℕ} (hmi : 0 < max_iteration) {tolerance dampling_factor : ℚ}
    {r : PRResult}
    (h : page_rank_full g enum max_iteration tolerance dampling_factor = .ok r) :
    r.iterations ≤ max_iteration ∧
    (r.iterations < max_iteration → r.final_diff ≤ tolerance) ∧
    (∀ (fuel : ℕ) (diff : ℚ) (pr : List (ℕ × ℚ)) (lo : Adj), diff ≤ tolerance →
      prLoop g.link_in dampling_factor
        ((1 - dampling_factor) * (1 / (enum.length : ℚ))) tolerance enum fuel diff pr lo
        = .ok (pr, lo, 0, diff)) := by
  rw [page_rank_full_def hne] at h
  split at h
  · cases h
  · rename_i fpr flo i fd hl
    cases h
    exact ⟨prLoop_iterations_le hl, prLoop_cap_or_converged hl,
      fun fuel diff pr lo hd => prLoop_stops_at_once fuel pr lo hd⟩

/-- Witness for C2 on the single-node graph with default parameters. -/
theorem c2_witness :
    (⟨[(7, 3/20)], [(7, 3/20)], SparseGraph.empty.add_node 7, 2, 0⟩ : PRResult).iterations
        ≤ 10000 ∧
    ((⟨[(7, 3/20)], [(7, 3/20)], SparseGraph.empty.add_node 7, 2, 0⟩ : PRResult).iterations
        < 10000 →
      (⟨[(7, 3/20)], [(7, 3/20)], SparseGraph.empty.add_node 7, 2, 0⟩ : PRResult).final_diff
        ≤ 1/10000) ∧
    (∀ (fuel : ℕ) (diff : ℚ) (pr : List (ℕ × ℚ)) (lo : Adj), diff ≤ 1/10000 →
      prLoop (SparseGraph.empty.add_node 7).link_in (17/20)
        ((1 - 17/20) * (1 / (([7] : List ℕ).length : ℚ))) (1/10000) [7] fuel diff pr lo
        = .ok (pr, lo, 0, diff)) :=
  c2_loop_cap_and_convergence (by decide) (by decide) (single_node_run 7)

/-- C3 counterexample: on the empty graph the code raises a bare
`ZeroDivisionError` (from `1 / N` with `N = 0`); no `EmptyGraphError` class
exists anywhere in the source, and the raised error is not it. -/
theorem c3_counterexample :
    page_rank_full SparseGraph.empty [] 10000 (1/10000) (17/20)
      = .error PyError.zeroDivision ∧
    (Except.error PyError.zeroDivision : Except PyError PRResult)
      ≠ .error PyError.emptyGraph := by
  refine ⟨rfl, ?_⟩
  intro hcontra
  injection hcontra with hcontra'
  cases hcontra'

/-- C3 amended: invoking the rank computation on a graph with zero nodes
raises `ZeroDivisionError` (not an `EmptyGraphError`, which the code does
not define) immediately at the `1 / N` initialisation, before any
iteration, and never returns a partial ranking. -/
theorem c3_zero_division_on_empty (g : SparseGraph) {enum : List ℕ}
    (henum : enum.Perm g.nodes) (hnodes : g.nodes = []) (mi : ℕ) (tol d : ℚ) :
    page_rank_full g enum mi tol d = .error PyError.zeroDivision := by
  have henil : enum = [] := List.Perm.eq_nil (hnodes ▸ henum)
  subst henil
  rfl

/-- Witness for the amended C3 on the freshly constructed empty graph. -/
theorem c3_witness :
    page_rank_full SparseGraph.empty [] 10000 (1/10000) (17/20)
      = .error PyError.zeroDivision :=
  c3_zero_division_on_empty SparseGraph.empty (by decide) (by decide) 10000 _ _

/-- C4 counterexample: nodes are inserted in the order 2, 1, but the Python
set `{2, 1}` iterates as 1, 2 (CPython hash-table order; small integers
hash to themselves), so `pr` is keyed 1 first.  Both nodes tie at `3/40`
and the stable sort returns them in set-iteration order `[1, 2]`, not in
the insertion order `[2, 1]`. -/
theorem c4_counterexample :
    ((SparseGraph.empty.add_node 2).add_node 1).nodes = [2, 1] ∧
    ([1, 2] : List ℕ).Perm ((SparseGraph.empty.add_node 2).add_node 1).nodes ∧
    page_rank ((SparseGraph.empty.add_node 2).add_node 1) [1, 2] 10000 (1/10000) (17/20)
      = .ok [(1, 3/40), (2, 3/40)] ∧
    ([(1, (3 : ℚ)/40), (2, (3 : ℚ)/40)].map Prod.fst) ≠ [2, 1] := by
  refine ⟨rfl, by decide, ?_, by decide⟩
  rw [page_rank, two_node_run]
  rfl

/-- C4 amended: the returned sequence lists every node exactly once, is
sorted by score descending, and breaks ties between equal scores by the
iteration order of the node set (`enum`, the order the keys entered `pr`),
which in CPython is hash-table order, not the original insertion order. -/
theorem c4_ranking_order {g : SparseGraph} (hg : Built g) {enum : List ℕ}
    (henum : enum.Perm g.nodes) (hne : enum ≠ [])
    {mi : ℕ} {tol d : ℚ} {r : PRResult}
    (h : page_rank_full g enum mi tol d = .ok r) :
    (r.ranked.map Prod.fst).Perm g.nodes ∧
    g.nodes.Nodup ∧
    r.ranked.Pairwise (fun x y => y.2 ≤ x.2) ∧
    r.final_pr.map Prod.fst = enum ∧
    (∀ q : ℚ, r.ranked.filter (fun p => p.2 = q) = r.final_pr.filter (fun p => p.2 = q)) := by
  have hwf := built_wf hg
  rw [page_rank_full_def hne] at h
  split at h
  · cases h
  · rename_i fpr flo i fd hl
    cases h
    have hinv := prLoop_invariant (fun pr => pr.map Prod.fst = enum)
      (fun pr npr lo₁ hP hstep => step_keys hwf hP hstep)
      (by
        show (enum.map (fun n => (n, 1 / (enum.length : ℚ)))).map Prod.fst = enum
        rw [List.map_map]
        exact List.map_id enum) hl
    refine ⟨?_, hwf.nodes_nodup, sortDesc_sorted fpr, hinv.1,
      fun q => sortDesc_filter fpr q⟩
    have hp := (sortDesc_perm fpr).map Prod.fst
    rw [hinv.1] at hp
    exact hp.trans henum

/-- Witness for the amended C4 on the two-isolated-node graph. -/
theorem c4_witness :
    (([(1, (3 : ℚ)/40), (2, (3 : ℚ)/40)].map Prod.fst).Perm
        ((SparseGraph.empty.add_node 2).add_node 1).nodes) ∧
    ((SparseGraph.empty.add_node 2).add_node 1).nodes.Nodup ∧
    ([(1, (3 : ℚ)/40), (2, (3 : ℚ)/40)].Pairwise (fun x y => y.2 ≤ x.2)) ∧
    ([(1, (3 : ℚ)/40), (2, (3 : ℚ)/40)].map Prod.fst = [1, 2]) ∧
    (∀ q : ℚ, [(1, (3 : ℚ)/40), (2, (3 : ℚ)/40)].filter (fun p => p.2 = q)
      = [(1, (3 : ℚ)/40), (2, (3 : ℚ)/40)].filter (fun p => p.2 = q)) :=
  c4_ranking_order (Built.add_node 1 (Built.add_node 2 Built.empty)) (by decide)
    (by decide) two_node_run

/-- C5 counterexample: `link(0, 1, 0.0)` gives node 0 an outgoing set whose
weights sum to zero; computing node 1's score divides by that sum and the
run raises `ZeroDivisionError`, contradicting the claim that no division
error is raised. -/
theorem c5_counterexample :
    page_rank_full (SparseGraph.empty.link 0 1 0) [0, 1] 10000 (1/10000) (17/20)
      = .error PyError.zeroDivision := by
  rw [show (10000 : ℕ) = 9999 + 1 from rfl, page_rank_full_def (by decide), prLoop,
    if_pos (by norm_num)]
  norm_num [iter_compute_new_pr, iterKeys, iterInner, ddRead, dictGet, dictGetD,
    sumWeights, SparseGraph.link, SparseGraph.empty, ddAdd, setAdd]

/-- C5 amended: a node with no outgoing edges raises no division error (it
is never a divisor, and having no successors it contributes to nobody);
whenever every recorded outgoing edge set is empty or has nonzero total
weight, `page_rank` returns normally.  A node with a successor whose
outgoing weights sum to zero, however, raises `ZeroDivisionError` (see the
counterexample); no score ever becomes NaN or infinite because the run
aborts at the offending division instead. -/
theorem c5_no_division_error {g : SparseGraph} (hg : Built g) {enum : List ℕ}
    (henum : enum.Perm g.nodes) (hne : enum ≠ [])
    (hpos : ∀ p ∈ g.link_out, (p.2 : EdgeSet) = [] ∨ sumWeights p.2 ≠ 0)
    (mi : ℕ) (tol d : ℚ) :
    ∃ r : PRResult, page_rank_full g enum mi tol d = .ok r := by
  have hwf := built_wf hg
  rw [page_rank_full_def hne]
  have hstep : ∀ pr : List (ℕ × ℚ), pr.map Prod.fst = enum →
      ∃ npr, iter_compute_new_pr g.link_in d ((1 - d) * (1 / (enum.length : ℚ))) pr g.link_out
        = .ok (npr, g.link_out) ∧ npr.map Prod.fst = enum := by
    intro pr hkeys
    refine ⟨(pr.map Prod.fst).map (fun v =>
      (v, newScore g.link_in g.link_out d ((1 - d) * (1 / (enum.length : ℚ))) pr v)), ?_, ?_⟩
    · rw [iter_compute_new_pr]
      exact iterKeys_total d _ pr (fun v _ => wf_sources_isSome hwf v)
        (fun v _ => wf_source_outsum_ne hwf hpos v)
    · rw [List.map_map]
      exact (List.map_id (pr.map Prod.fst)).trans hkeys
  obtain ⟨res, hres⟩ := prLoop_total (fun pr => pr.map Prod.fst = enum)
    (fun pr hP => hstep pr hP) mi 1
    (enum.map fun n => (n, 1 / (enum.length : ℚ)))
    (by
      show (enum.map (fun n => (n, 1 / (enum.length : ℚ)))).map Prod.fst = enum
      rw [List.map_map]
      exact List.map_id enum)
  obtain ⟨fpr, flo, i, fd⟩ := res
  refine ⟨⟨sortDesc fpr, fpr, { g with link_out := flo }, i, fd⟩, ?_⟩
  rw [hres]

/-- Witness for the amended C5 on the graph `1 → 2` (weight 1), whose node
2 is a rank sink with no outgoing edges. -/
theorem c5_witness :
    ∃ r : PRResult,
      page_rank_full (SparseGraph.empty.link 1 2 1) [1, 2] 10000 (1/10000) (17/20)
        = .ok r :=
  c5_no_division_error (Built.link 1 2 1 Built.empty) (by decide) (by decide)
    (by
      intro p hp
      rw [show (SparseGraph.empty.link 1 2 1).link_out = [(1, [⟨2, 1⟩])] from rfl] at hp
      rcases List.mem_singleton.mp hp with rfl
      right
      norm_num [sumWeights])
    10000 (1/10000) (17/20)

/-- C6 counterexample: on the graph with the single node 7 and no edges,
the default run returns score `3/20 = 1 - 0.85`, not `1/N = 1`, and
executes 2 iterations, not 0 (the `diff` variable starts at `1.0`, so the
convergence check cannot pass immediately). -/
theorem c6_counterexample :
    page_rank_full (SparseGraph.empty.add_node 7) [7] 10000 (1/10000) (17/20)
      = .ok ⟨[(7, 3/20)], [(7, 3/20)], SparseGraph.empty.add_node 7, 2, 0⟩ ∧
    ((3 : ℚ)/20 ≠ 1) ∧ ((2 : ℕ) ≠ 0) :=
  ⟨single_node_run 7, by norm_num, by decide⟩

/-- C6 amended: for the graph consisting of exactly one node and no edges,
`page_rank` returns that node with score `1 - dampling_factor` (the tax
alone, since the node has no inflow), not `1/N`; the `diff` variable is
initialised to `1.0`, so the convergence check does not pass in zero
iterations: for `tolerance < dampling_factor ≤ 1` the loop runs exactly 2
iterations (the first moves the score to the tax, the second confirms it
with diff 0). -/
theorem c6_single_node (n : ℕ) {mi : ℕ} (hmi : 2 ≤ mi) {tol d : ℚ}
    (htol0 : 0 ≤ tol) (htold : tol < d) (hd1 : d ≤ 1) :
    page_rank_full (SparseGraph.empty.add_node n) [n] mi tol d
      = .ok ⟨[(n, 1 - d)], [(n, 1 - d)], SparseGraph.empty.add_node n, 2, 0⟩ := by
  rw [edgeless_run rfl rfl (List.cons_ne_nil _ _) hmi htol0
    (lt_of_lt_of_le htold hd1) (by simpa using htold)]
  norm_num

/-- Witness for the amended C6 with non-default parameters. -/
theorem c6_witness :
    page_rank_full (SparseGraph.empty.add_node 9) [9] 50 (1/100) (3/5)
      = .ok ⟨[(9, 1 - 3/5)], [(9, 1 - 3/5)], SparseGraph.empty.add_node 9, 2, 0⟩ :=
  c6_single_node 9 (by norm_num) (by norm_num) (by norm_num) (by norm_num)

/-- C7: with non-negative edge weights and `dampling_factor` in `[0, 1]`,
every score vector of the run keeps each individual score in `[0, 1]` and
the total in `[0, N]`: the initial vector satisfies the invariant, one
update step preserves it (so by induction it holds at every iteration), and
the returned ranking satisfies it. -/
theorem c7_score_bounds {g : SparseGraph} (hg : Built g) {enum : List ℕ}
    (henum : enum.Perm g.nodes) (hne : enum ≠ [])
    (hw : ∀ p ∈ g.link_out, ∀ e ∈ (p.2 : EdgeSet), 0 ≤ e.weight)
    {d : ℚ} (hd0 : 0 ≤ d) (hd1 : d ≤ 1) :
    PRBounds enum (enum.map (fun m => (m, 1 / (enum.length : ℚ)))) ∧
    (∀ (pr npr : List (ℕ × ℚ)) (lo' : Adj), PRBounds enum pr →
      iter_compute_new_pr g.link_in d ((1 - d) * (1 / (enum.length : ℚ))) pr g.link_out
        = .ok (npr, lo') →
      PRBounds enum npr ∧ (∀ p ∈ npr, 0 ≤ p.2 ∧ p.2 ≤ 1) ∧
        0 ≤ (npr.map Prod.snd).sum ∧ (npr.map Prod.snd).sum ≤ (enum.length : ℚ)) ∧
    (∀ (mi : ℕ) (tol : ℚ) (r : PRResult), page_rank_full g enum mi tol d = .ok r →
      (∀ p ∈ r.ranked, 0 ≤ p.2 ∧ p.2 ≤ 1) ∧
        0 ≤ (r.ranked.map Prod.snd).sum ∧ (r.ranked.map Prod.snd).sum ≤ (enum.length : ℚ)) := by
  have hwf := built_wf hg
  have hN1 : (1 : ℚ) ≤ (enum.length : ℚ) :=
    Nat.one_le_cast.mpr (List.length_pos.mpr hne)
  have hNpos : (0 : ℚ) < (enum.length : ℚ) := lt_of_lt_of_le one_pos hN1
  have hinit : PRBounds enum (enum.map (fun m => (m, 1 / (enum.length : ℚ)))) := by
    refine ⟨?_, ?_, ?_⟩
    · rw [List.map_map]
      exact List.map_id enum
    · intro p hp
      obtain ⟨m, hm, rfl⟩ := List.mem_map.mp hp
      refine ⟨by positivity, ?_⟩
      rw [div_le_one hNpos]
      exact hN1
    · rw [List.map_map,
        show (enum.map (Prod.snd ∘ fun m => (m, 1 / (enum.length : ℚ))))
          = enum.map (fun _ => 1 / (enum.length : ℚ)) from rfl,
        List.map_const', List.sum_replicate, nsmul_eq_mul, mul_one_div,
        div_self (ne_of_gt hNpos)]
  refine ⟨hinit, ?_, ?_⟩
  · intro pr npr lo' hP h
    obtain ⟨⟨hk, he, hs⟩, hlo⟩ := step_preserves_bounds hwf henum hne hw hd0 hd1 hP h
    have hge : 0 ≤ (npr.map Prod.snd).sum := by
      refine List.sum_nonneg ?_
      intro x hx
      obtain ⟨p, hp, rfl⟩ := List.mem_map.mp hx
      exact (he p hp).1
    exact ⟨⟨hk, he, hs⟩, he, hge, hs.trans hN1⟩
  · intro mi tol r h
    rw [page_rank_full_def hne] at h
    split at h
    · cases h
    · rename_i fpr flo i fd hl
      cases h
      obtain ⟨⟨hk, he, hs⟩, -⟩ := prLoop_invariant (PRBounds enum)
        (fun pr npr lo₁ hP hiter => step_preserves_bounds hwf henum hne hw hd0 hd1 hP hiter)
        hinit hl
      have hperm := sortDesc_perm fpr
      refine ⟨fun p hp => he p (hperm.subset hp), ?_, ?_⟩
      · refine List.sum_nonneg ?_
        intro x hx
        obtain ⟨p, hp, rfl⟩ := List.mem_map.mp hx
        exact (he p (hperm.subset hp)).1
      · rw [show ((sortDesc fpr).map Prod.snd).sum = (fpr.map Prod.snd).sum from
          (hperm.map _).sum_eq]
        exact hs.trans hN1

/-- Witness for C7 on the one-edge graph `1 → 2` with the default damping
factor. -/
theorem c7_witness :
    PRBounds [1, 2] ([1, 2].map (fun m => (m, 1 / (([1, 2] : List ℕ).length : ℚ)))) ∧
    (∀ (pr npr : List (ℕ × ℚ)) (lo' : Adj), PRBounds [1, 2] pr →
      iter_compute_new_pr (SparseGraph.empty.link 1 2 1).link_in (17/20)
          ((1 - 17/20) * (1 / (([1, 2] : List ℕ).length : ℚ))) pr
          (SparseGraph.empty.link 1 2 1).link_out
        = .ok (npr, lo') →
      PRBounds [1, 2] npr ∧ (∀ p ∈ npr, 0 ≤ p.2 ∧ p.2 ≤ 1) ∧
        0 ≤ (npr.map Prod.snd).sum ∧
        (npr.map Prod.snd).sum ≤ (([1, 2] : List ℕ).length : ℚ)) ∧
    (∀ (mi : ℕ) (tol : ℚ) (r : PRResult),
      page_rank_full (SparseGraph.empty.link 1 2 1) [1, 2] mi tol (17/20) = .ok r →
      (∀ p ∈ r.ranked, 0 ≤ p.2 ∧ p.2 ≤ 1) ∧
        0 ≤ (r.ranked.map Prod.snd).sum ∧
        (r.ranked.map Prod.snd).sum ≤ (([1, 2] : List ℕ).length : ℚ)) :=
  c7_score_bounds (Built.link 1 2 1 Built.empty) (by decide) (by decide)
    (by
      intro p hp
      rw [show (SparseGraph.empty.link 1 2 1).link_out = [(1, [⟨2, 1⟩])] from rfl] at hp
      rcases List.mem_singleton.mp hp with rfl
      intro e he
      rcases List.mem_singleton.mp he with rfl
      norm_num)
    (by norm_num) (by norm_num)

/-- Lookup after a `defaultdict` edge insertion: the stored set gains the
edge through Python set semantics. -/
theorem dictGetD_ddAdd_self (m : Adj) (k : ℕ) (e : Edge) :
    dictGetD (ddAdd m k e) k [] = setAdd (dictGetD m k []) e := by
  rw [dictGetD, dictGet_ddAdd_self]
  rfl

theorem getD_set_nodup {m : Adj} (h : ∀ p ∈ m, (p.2 : EdgeSet).Nodup) (k : ℕ) :
    (dictGetD m k []).Nodup := by
  rw [dictGetD]
  cases heq : dictGet m k with
  | none => exact List.nodup_nil
  | some es => exact h (k, es) (dictGet_mem heq)

/-- C8: edge insertion is idempotent on the full value tuple.  Linking
`A → B` twice with the same weight leaves exactly one `(B, w)` entry in
`A`'s outgoing set and one `(A, w)` entry in `B`'s incoming set; linking
again with a different weight `w₂` keeps both `(B, w)` and `(B, w₂)` as two
distinct entries (and mirrored for the incoming set) instead of
overwriting. -/
theorem c8_link_set_semantics {g : SparseGraph} (hg : Built g) (A B : ℕ) {w w₂ : ℚ}
    (hww : w ≠ w₂) :
    ((dictGetD ((g.link A B w).link A B w).link_out A []).count ⟨B, w⟩ = 1) ∧
    ((dictGetD ((g.link A B w).link A B w).link_in B []).count ⟨A, w⟩ = 1) ∧
    ((dictGetD ((g.link A B w).link A B w₂).link_out A []).count ⟨B, w⟩ = 1) ∧
    ((dictGetD ((g.link A B w).link A B w₂).link_out A []).count ⟨B, w₂⟩ = 1) ∧
    ((dictGetD ((g.link A B w).link A B w₂).link_in B []).count ⟨A, w⟩ = 1) ∧
    ((dictGetD ((g.link A B w).link A B w₂).link_in B []).count ⟨A, w₂⟩ = 1) := by
  have hwf := built_wf hg
  have hnodup_out : (dictGetD g.link_out A []).Nodup := getD_set_nodup hwf.out_sets_nodup A
  have hnodup_in : (dictGetD g.link_in B []).Nodup := getD_set_nodup hwf.in_sets_nodup B
  have hBw : (⟨B, w⟩ : Edge) ≠ ⟨B, w₂⟩ := by
    intro hcontra
    injection hcontra with h1 h2
    exact hww h2
  have hAw : (⟨A, w⟩ : Edge) ≠ ⟨A, w₂⟩ := by
    intro hcontra
    injection hcontra with h1 h2
    exact hww h2
  rw [show ((g.link A B w).link A B w).link_out
      = ddAdd (ddAdd g.link_out A ⟨B, w⟩) A ⟨B, w⟩ from rfl,
    show ((g.link A B w).link A B w).link_in
      = ddAdd (ddAdd g.link_in B ⟨A, w⟩) B ⟨A, w⟩ from rfl,
    show ((g.link A B w).link A B w₂).link_out
      = ddAdd (ddAdd g.link_out A ⟨B, w⟩) A ⟨B, w₂⟩ from rfl,
    show ((g.link A B w).link A B w₂).link_in
      = ddAdd (ddAdd g.link_in B ⟨A, w⟩) B ⟨A, w₂⟩ from rfl,
    ]
  simp only [dictGetD_ddAdd_self]
  rw [show setAdd (setAdd (dictGetD g.link_out A []) ⟨B, w⟩) ⟨B, w⟩
      = setAdd (dictGetD g.link_out A []) ⟨B, w⟩ from if_pos (self_mem_setAdd _ _),
    show setAdd (setAdd (dictGetD g.link_in B []) ⟨A, w⟩) ⟨A, w⟩
      = setAdd (dictGetD g.link_in B []) ⟨A, w⟩ from if_pos (self_mem_setAdd _ _)]
  refine ⟨count_setAdd_self hnodup_out _, count_setAdd_self hnodup_in _, ?_, ?_, ?_, ?_⟩
  · rw [count_setAdd_ne _ hBw]
    exact count_setAdd_self hnodup_out _
  · exact count_setAdd_self (setAdd_nodup hnodup_out _) _
  · rw [count_setAdd_ne _ hAw]
    exact count_setAdd_self hnodup_in _
  · exact count_setAdd_self (setAdd_nodup hnodup_in _) _

/-- Witness for C8 on the empty graph with `A = 0`, `B = 1`, weights 1 and 2. -/
theorem c8_witness :
    ((dictGetD ((SparseGraph.empty.link 0 1 1).link 0 1 1).link_out 0 []).count ⟨1, 1⟩ = 1) ∧
    ((dictGetD ((SparseGraph.empty.link 0 1 1).link 0 1 1).link_in 1 []).count ⟨0, 1⟩ = 1) ∧
    ((dictGetD ((SparseGraph.empty.link 0 1 1).link 0 1 2).link_out 0 []).count ⟨1, 1⟩ = 1) ∧
    ((dictGetD ((SparseGraph.empty.link 0 1 1).link 0 1 2).link_out 0 []).count ⟨1, 2⟩ = 1) ∧
    ((dictGetD ((SparseGraph.empty.link 0 1 1).link 0 1 2).link_in 1 []).count ⟨0, 1⟩ = 1) ∧
    ((dictGetD ((SparseGraph.empty.link 0 1 1).link 0 1 2).link_in 1 []).count ⟨0, 2⟩ = 1) :=
  c8_link_set_semantics Built.empty 0 1 (by norm_num)

/-- C9: on every API-built graph, `page_rank` leaves the graph unchanged:
`nodes` and `link_in` are only read (`len`, iteration, `.get`), and the
`defaultdict` subscript reads `self.link_out[node]` never insert a key
because every incoming-edge source already owns an outgoing entry (the
mirror invariant), so the threaded `link_out` state comes back identical. -/
theorem c9_no_mutation {g : SparseGraph} (hg : Built g) (enum : List ℕ)
    (mi : ℕ) (tol d : ℚ) {r : PRResult}
    (h : page_rank_full g enum mi tol d = .ok r) :
    r.graph_after = g := by
  have hwf := built_wf hg
  by_cases hne : enum = []
  · subst hne
    rw [show page_rank_full g [] mi tol d
        = .error PyError.zeroDivision from rfl] at h
    cases h
  · rw [page_rank_full_def hne] at h
    split at h
    · cases h
    · rename_i fpr flo i fd hl
      cases h
      obtain ⟨-, rfl⟩ := prLoop_invariant (fun _ => True)
        (fun pr npr lo₁ _ hiter => ⟨trivial, (step_keys hwf rfl hiter).2⟩)
        trivial hl
      rfl

/-- Witness for C9 on the single-node graph with default parameters. -/
theorem c9_witness :
    (⟨[(7, 3/20)], [(7, 3/20)], SparseGraph.empty.add_node 7, 2, 0⟩
      : PRResult).graph_after = SparseGraph.empty.add_node 7 :=
  c9_no_mutation (Built.add_node 7 Built.empty) [7] 10000 (1/10000) (17/20)
    (single_node_run 7)

/-- C10: with a nonempty graph, `max_iteration ≥ 1` and `tolerance < 1.0`,
at least one update iteration executes, whatever the graph — even when the
initial uniform vector is already a fixed point — because the `diff`
variable is initialised to `1.0` before any two vectors are compared. -/
theorem c10_at_least_one_iteration {g : SparseGraph} {enum : List ℕ} (hne : enum ≠ [])
    {mi : ℕ} (hmi : 0 < mi) {tol : ℚ} (htol : tol < 1) {d : ℚ} {r : PRResult}
    (h : page_rank_full g enum mi tol d = .ok r) :
    1 ≤ r.iterations := by
  rw [page_rank_full_def hne] at h
  split at h
  · cases h
  · rename_i fpr flo i fd hl
    cases h
    exact prLoop_at_least_one hmi htol hl

/-- Witness for C10 on the single-node graph, whose run takes 2 ≥ 1
iterations even though the vector reached in one step is already stable. -/
theorem c10_witness :
    1 ≤ (⟨[(7, 3/20)], [(7, 3/20)], SparseGraph.empty.add_node 7, 2, 0⟩
      : PRResult).iterations :=
  c10_at_least_one_iteration (by decide) (by decide) (by norm_num)
    (single_node_run 7)
